import Mathlib

/-!
Verification of the pipeline orchestrator module
(`services/orchest-api/app/app/core/pipelines.py`).

The Python code is shallowly embedded as executable Lean definitions:

* JSON dictionaries become association lists (`List (String × _)`) that keep
  insertion order; opaque JSON values that the orchestrator never inspects
  (settings, parameters, services, unknown step fields) are carried as opaque
  `String` blobs.
* Python exceptions become `Except PyErr _` results (`KeyError` from indexing a
  dict with a missing key, `ValueError` from `construct_pipeline`/`get_step`).
* `PipelineStep.parents` / `_children` hold lists of Python object references;
  every use in the module compares or serializes them through
  `properties["uuid"]`, so the value-level embedding stores the corresponding
  UUID lists.  (Object identity and in-place mutation are modelled separately
  by the `Heap` namespace further down.)
-/

/-- The two exception kinds raised by the embedded code paths: `KeyError`
(indexing a dict with a missing key) and `ValueError`. -/
inductive PyErr where
  | keyError
  | valueError
deriving DecidableEq

instance {ε α : Type} [DecidableEq ε] [DecidableEq α] : DecidableEq (Except ε α) := fun a b =>
  match a, b with
  | .ok x, .ok y =>
    if h : x = y then .isTrue (congrArg Except.ok h)
    else .isFalse (fun hc => h (Except.ok.inj hc))
  | .error x, .error y =>
    if h : x = y then .isTrue (congrArg Except.error h)
    else .isFalse (fun hc => h (Except.error.inj hc))
  | .ok _, .error _ => .isFalse (fun hc => Except.noConfusion hc)
  | .error _, .ok _ => .isFalse (fun hc => Except.noConfusion hc)

/-- The step properties the orchestrator reads (`uuid`, `title`, `file_path`,
`environment`, `incoming_connections`); remaining user metadata is carried
verbatim in `extra`. -/
structure PipelineStepProperties where
  uuid : String
  title : String
  file_path : String
  environment : String
  incoming_connections : List String
  extra : List (String × String)
deriving DecidableEq

/-- A step of a pipeline (`PipelineStep` in the source).  `parents` and
`children` are the UUID views of the `parents` / `_children` adjacency lists
(all operations in the module access those lists through
`properties["uuid"]`). -/
structure PipelineStep where
  properties : PipelineStepProperties
  parents : List String
  children : List String
deriving DecidableEq

/-- Top-level pipeline description as fed to `Pipeline.from_json`.  `none` in
`version`/`parameters`/`services` models an absent key; `extra` carries any
further top-level keys (opaque). `steps` is the insertion-ordered
`uuid -> step-properties` dict. -/
structure PipelineDefinition where
  uuid : String
  name : String
  settings : String
  version : Option String
  parameters : Option String
  services : Option String
  steps : List (String × PipelineStepProperties)
  extra : List (String × String)
deriving DecidableEq

/-- The in-memory `Pipeline.properties` dict built by `from_json`:
`parameters`/`services` have been defaulted, `version` is the value of
`description.get("version")` (so `none` here is Python `None`). -/
structure PipelineProperties where
  name : String
  uuid : String
  settings : String
  parameters : String
  services : String
  version : Option String
deriving DecidableEq

/-- A pipeline: a list of steps plus the serializable properties. -/
structure Pipeline where
  steps : List PipelineStep
  properties : PipelineProperties
deriving DecidableEq

/-- The opaque blob standing for the empty JSON object `\x7b\x7d`, the default
of `description.get("parameters", \x7b\x7d)` and `.get("services", \x7b\x7d)`. -/
def emptyJsonObject : String := "empty-json-object"

/-- Dict lookup on an association list (first binding wins, as in a Python
dict with unique keys). -/
def lookupKey {α : Type} (m : List (String × α)) (k : String) : Option α :=
  (m.find? (fun kv => kv.1 == k)).map (fun kv => kv.2)

/-- The `_children` list built by the second pass of `from_json` for the step
stored under key `k`: one entry (the child's uuid) for every occurrence of `k`
in any step's `incoming_connections`, in dict-iteration order. -/
def stepChildren (steps : List (String × PipelineStepProperties)) (k : String) : List String :=
  steps.foldr
    (fun kv acc => (kv.2.incoming_connections.filter (fun u => u == k)).map (fun _ => kv.2.uuid) ++ acc)
    []

/-- All-or-nothing mapping over a list of fallible lookups (the embedding of
a Python loop that raises on the first failure). -/
def mapOption {α β : Type} (f : α → Option β) : List α → Option (List β)
  | [] => some []
  | a :: t => (f a).bind (fun b => (mapOption f t).map (fun bs => b :: bs))

/-- The step object the second pass of `from_json` produces for the dict
entry `kv`: every `incoming_connections` entry is looked up among the step
keys (`steps[uuid]`, hence `none` — a `KeyError` — when a referenced UUID is
not a key), `parents` holds the uuids of the found objects and `_children`
the back references. -/
def buildStep (description : PipelineDefinition) (kv : String × PipelineStepProperties) :
    Option PipelineStep :=
  (mapOption (fun u => lookupKey description.steps u) kv.2.incoming_connections).map
    (fun ps =>
      { properties := kv.2
        parents := ps.map (fun p => p.uuid)
        children := stepChildren description.steps kv.1 })

/-- `Pipeline.from_json`: builds the uuid→step dict, then populates `parents`
and `_children` in a second pass.  There is no cycle detection and no other
validation. -/
def Pipeline.from_json (description : PipelineDefinition) : Except PyErr Pipeline :=
  match mapOption (buildStep description) description.steps with
  | none => .error .keyError
  | some steps =>
      .ok { steps := steps
            properties :=
              { name := description.name
                uuid := description.uuid
                settings := description.settings
                parameters := description.parameters.getD emptyJsonObject
                services := description.services.getD emptyJsonObject
                version := description.version } }

/-- The dictionary produced by `Pipeline.to_dict`: the `steps` dict is rebuilt
keyed by each step's `properties["uuid"]`, and the pipeline properties are
merged in, so `parameters`, `services` and `version` are always present
(`version` possibly as JSON null, modelled by `none`). -/
structure PipelineDict where
  steps : List (String × PipelineStepProperties)
  name : String
  uuid : String
  settings : String
  parameters : String
  services : String
  version : Option String
deriving DecidableEq

/-- `Pipeline.to_dict`. -/
def Pipeline.to_dict (pl : Pipeline) : PipelineDict :=
  { steps := pl.steps.map (fun s => (s.properties.uuid, s.properties))
    name := pl.properties.name
    uuid := pl.properties.uuid
    settings := pl.properties.settings
    parameters := pl.properties.parameters
    services := pl.properties.services
    version := pl.properties.version }

/-- `Pipeline.get_step`: linear scan raising `ValueError` when no step carries
the requested uuid (modelled as `Option`). -/
def Pipeline.get_step (pl : Pipeline) (uuid : String) : Option PipelineStep :=
  pl.steps.find? (fun s => s.properties.uuid == uuid)

/-- The uuids of a list of steps, in order. -/
def uuidsOf (steps : List PipelineStep) : List String :=
  steps.map (fun s => s.properties.uuid)

/-- `Pipeline.get_induced_subgraph`: keep exactly the selected steps, produce
new steps with adjacency restricted to the kept set and
`incoming_connections` rewritten to the uuids of the new parents. -/
def Pipeline.get_induced_subgraph (pl : Pipeline) (selection : List String) : Pipeline :=
  let keep_steps := pl.steps.filter (fun s => selection.contains s.properties.uuid)
  let keepUuids := uuidsOf keep_steps
  let new_steps := keep_steps.map (fun s =>
    let newParents := s.parents.filter (fun u => keepUuids.contains u)
    { properties := { s.properties with incoming_connections := newParents }
      parents := newParents
      children := s.children.filter (fun u => keepUuids.contains u) : PipelineStep })
  { steps := new_steps, properties := pl.properties }

/-- Lookup of a step by uuid in a step list (the object a popped stack entry
denotes; Python holds the object itself, the embedding recovers it by uuid). -/
def lookupStep (steps : List PipelineStep) (u : String) : Option PipelineStep :=
  steps.find? (fun s => s.properties.uuid == u)

theorem length_filter_imp_le (p q : String → Bool) (h : ∀ x, p x = true → q x = true) :
    ∀ l : List String, (l.filter p).length ≤ (l.filter q).length := by
  intro l
  induction l with
  | nil => simp
  | cons a t ih =>
    by_cases hp : p a = true
    · rw [List.filter_cons_of_pos hp, List.filter_cons_of_pos (h a hp)]
      simpa using ih
    · rw [List.filter_cons_of_neg (by simpa using hp)]
      by_cases hq : q a = true
      · rw [List.filter_cons_of_pos hq]
        exact Nat.le_succ_of_le ih
      · rw [List.filter_cons_of_neg (by simpa using hq)]
        exact ih

/-- Marking one more present, not-yet-visited uuid as visited strictly shrinks
the set of unvisited uuids (the termination measure of the worklist). -/
theorem length_filter_notContains_cons_lt (l : List String) (v : List String) (u : String)
    (hu : u ∈ l) (hv : u ∉ v) :
    (l.filter (fun x => !(u :: v).contains x)).length <
      (l.filter (fun x => !v.contains x)).length := by
  induction l with
  | nil => cases hu
  | cons a t ih =>
    have hmono : ∀ m : List String,
        (m.filter (fun x => !(u :: v).contains x)).length ≤
          (m.filter (fun x => !v.contains x)).length := by
      intro m
      apply length_filter_imp_le
      intro x hx
      simp only [List.contains_cons, Bool.not_eq_true', Bool.or_eq_false_iff] at hx
      simpa using hx.2
    by_cases hau : a = u
    · subst hau
      have h2 : (!v.contains a) = true := by simpa using hv
      have hl : (a :: t).filter (fun x => !(a :: v).contains x) =
          t.filter (fun x => !(a :: v).contains x) := by
        apply List.filter_cons_of_neg
        simp
      have hr : (a :: t).filter (fun x => !v.contains x) =
          a :: t.filter (fun x => !v.contains x) := List.filter_cons_of_pos h2
      rw [hl, hr, List.length_cons]
      exact Nat.lt_succ_of_le (hmono t)
    · have hul : u ∈ t := by
        rcases List.mem_cons.mp hu with h | h
        · exact absurd h.symm hau
        · exact h
      have heq : ((u :: v).contains a) = (v.contains a) := by
        simp only [List.contains_cons]
        have hne : (a == u) = false := beq_false_of_ne hau
        simp [hne]
      by_cases hav : v.contains a = true
      · have hl : (a :: t).filter (fun x => !(u :: v).contains x) =
            t.filter (fun x => !(u :: v).contains x) := by
          apply List.filter_cons_of_neg
          simp only [heq, hav]
          decide
        have hr : (a :: t).filter (fun x => !v.contains x) =
            t.filter (fun x => !v.contains x) := by
          apply List.filter_cons_of_neg
          simp only [hav]
          decide
        rw [hl, hr]
        exact ih hul
      · have hav' : v.contains a = false := Bool.eq_false_iff.mpr hav
        have hl : (a :: t).filter (fun x => !(u :: v).contains x) =
            a :: t.filter (fun x => !(u :: v).contains x) := by
          apply List.filter_cons_of_pos
          simp only [heq, hav']
          decide
        have hr : (a :: t).filter (fun x => !v.contains x) =
            a :: t.filter (fun x => !v.contains x) := by
          apply List.filter_cons_of_pos
          simp only [hav']
          decide
        rw [hl, hr, List.length_cons, List.length_cons]
        exact Nat.succ_lt_succ (ih hul)

/-- The worklist of `Pipeline.incoming`: pop a step, skip it when already
visited, otherwise emit a new step (deep-copied properties whose
`incoming_connections` is rewritten to the parents' uuids, `_children`
filtered to the already-visited steps and the selection) and push its parents.
Python pops from the list's tail; the embedding pops from the head, which
permutes the visit order but not the visited set. -/
def incomingLoop (src : List PipelineStep) (selection : List String) :
    List String → List String → List PipelineStep → List PipelineStep
  | [], _, acc => acc
  | u :: stack, visited, acc =>
    if hvis : visited.contains u then
      incomingLoop src selection stack visited acc
    else
      match hlk : lookupStep src u with
      | none => incomingLoop src selection stack visited acc
      | some st =>
        let new_step : PipelineStep :=
          { properties := { st.properties with incoming_connections := st.parents }
            parents := st.parents
            children := st.children.filter (fun c => visited.contains c || selection.contains c) }
        incomingLoop src selection (st.parents ++ stack) (u :: visited) (new_step :: acc)
termination_by stack visited _ =>
  (((uuidsOf src).filter (fun x => !visited.contains x)).length, stack.length)
decreasing_by
  · exact Prod.Lex.right _ (Nat.lt_succ_self _)
  · exact Prod.Lex.right _ (Nat.lt_succ_self _)
  · apply Prod.Lex.left
    have hst : st ∈ src := List.mem_of_find?_eq_some hlk
    have hequ : st.properties.uuid = u := by
      have := List.find?_some hlk
      simpa using this
    have hu : u ∈ uuidsOf src := List.mem_map.mpr ⟨st, hst, hequ⟩
    exact length_filter_notContains_cons_lt _ _ _ hu (by simpa using hvis)

/-- `Pipeline.incoming`: ancestor closure of the selection (worklist seeded by
the selected steps), with the seeds removed again when `inclusive` is false,
in which case every surviving step's `_children` is filtered once more against
the final set. -/
def Pipeline.incoming (pl : Pipeline) (selection : List String) (inclusive : Bool) : Pipeline :=
  let selSteps := pl.steps.filter (fun s => selection.contains s.properties.uuid)
  let stack := uuidsOf selSteps
  let steps := incomingLoop pl.steps selection stack [] []
  let steps_to_be_included :=
    if inclusive then steps
    else
      let selUuids := uuidsOf selSteps
      let kept := steps.filter (fun s => !selUuids.contains s.properties.uuid)
      let keptUuids := uuidsOf kept
      kept.map (fun s => { s with children := s.children.filter (fun c => keptUuids.contains c) })
  { steps := steps_to_be_included, properties := pl.properties }

/-- `construct_pipeline`: builds the pipeline with `from_json` first, then
dispatches on `run_type`, raising `ValueError` for an unknown run type. -/
def construct_pipeline (uuids : List String) (run_type : String)
    (pipeline_definition : PipelineDefinition) : Except PyErr Pipeline :=
  (Pipeline.from_json pipeline_definition).bind (fun pipeline =>
    if run_type == "full" then .ok pipeline
    else if run_type == "selection" then .ok (pipeline.get_induced_subgraph uuids)
    else if run_type == "incoming" then .ok (pipeline.incoming uuids false)
    else .error .valueError)

theorem except_bind_ok {ε α β : Type} (a : α) (f : α → Except ε β) :
    (Except.ok a : Except ε α).bind f = f a := rfl

theorem except_bind_error {ε α β : Type} (e : ε) (f : α → Except ε β) :
    (Except.error e : Except ε α).bind f = Except.error e := rfl

theorem incomingLoop_nil (src : List PipelineStep) (sel visited : List String)
    (acc : List PipelineStep) : incomingLoop src sel [] visited acc = acc := by
  rw [incomingLoop]

theorem incomingLoop_cons_visited (src : List PipelineStep) (sel : List String)
    (u : String) (stack visited : List String) (acc : List PipelineStep)
    (h : visited.contains u = true) :
    incomingLoop src sel (u :: stack) visited acc = incomingLoop src sel stack visited acc := by
  rw [incomingLoop]
  rw [dif_pos h]

theorem incomingLoop_cons_miss (src : List PipelineStep) (sel : List String)
    (u : String) (stack visited : List String) (acc : List PipelineStep)
    (h : visited.contains u = false) (h2 : lookupStep src u = none) :
    incomingLoop src sel (u :: stack) visited acc = incomingLoop src sel stack visited acc := by
  rw [incomingLoop]
  rw [dif_neg (by rw [h]; simp)]
  split
  · rfl
  · rename_i st heq
    rw [h2] at heq
    cases heq

theorem incomingLoop_cons_step (src : List PipelineStep) (sel : List String)
    (u : String) (stack visited : List String) (acc : List PipelineStep)
    (st : PipelineStep) (h : visited.contains u = false) (h2 : lookupStep src u = some st) :
    incomingLoop src sel (u :: stack) visited acc =
      incomingLoop src sel (st.parents ++ stack) (u :: visited)
        ({ properties := { st.properties with incoming_connections := st.parents }
           parents := st.parents
           children := st.children.filter (fun c => visited.contains c || sel.contains c) } :: acc) := by
  rw [incomingLoop]
  rw [dif_neg (by rw [h]; simp)]
  split
  · rename_i heq
    rw [h2] at heq
    cases heq
  · rename_i st2 heq
    rw [h2] at heq
    cases heq
    rfl


/-- Non-dependent unfolding of one worklist iteration, convenient for both
rewriting and concrete evaluation. -/
theorem incomingLoop_cons (src : List PipelineStep) (sel : List String)
    (u : String) (stack visited : List String) (acc : List PipelineStep) :
    incomingLoop src sel (u :: stack) visited acc =
      if visited.contains u then incomingLoop src sel stack visited acc
      else
        match lookupStep src u with
        | none => incomingLoop src sel stack visited acc
        | some st =>
          incomingLoop src sel (st.parents ++ stack) (u :: visited)
            ({ properties := { st.properties with incoming_connections := st.parents }
               parents := st.parents
               children := st.children.filter (fun c => visited.contains c || sel.contains c) } :: acc) := by
  by_cases h : visited.contains u = true
  · rw [incomingLoop_cons_visited src sel u stack visited acc h, if_pos h]
  · have hf : visited.contains u = false := Bool.eq_false_iff.mpr h
    rw [if_neg h]
    match h2 : lookupStep src u with
    | none => rw [incomingLoop_cons_miss src sel u stack visited acc hf h2]
    | some st => rw [incomingLoop_cons_step src sel u stack visited acc st hf h2]


/-- Ancestor closure of the selection, as computed by the worklist of
`Pipeline.incoming`: the uuids of the selected steps present in the pipeline,
closed under taking recorded parents of resolvable members. -/
inductive InClosure (src : List PipelineStep) (sel : List String) : String → Prop
  | seed (s : PipelineStep) (hs : s ∈ src) (hsel : s.properties.uuid ∈ sel) :
      InClosure src sel s.properties.uuid
  | up (w u : String) (st : PipelineStep) (hw : InClosure src sel w)
      (hlk : lookupStep src w = some st) (hp : u ∈ st.parents) : InClosure src sel u

/-- `AncestorOf src u w`: there is a non-empty directed path of parent edges
from `u` down to `w` (each hop recorded in the `parents` list of a step
present in `src`). -/
inductive AncestorOf (src : List PipelineStep) : String → String → Prop
  | parent (u w : String) (st : PipelineStep) (hlk : lookupStep src w = some st)
      (hp : u ∈ st.parents) : AncestorOf src u w
  | up (u w x : String) (st : PipelineStep) (hlk : lookupStep src w = some st)
      (hp : u ∈ st.parents) (hanc : AncestorOf src w x) : AncestorOf src u x

/-- `u` names a selected step of the pipeline (a seed of the traversal). -/
def SeedUuid (src : List PipelineStep) (sel : List String) (u : String) : Prop :=
  u ∈ sel ∧ (lookupStep src u).isSome

theorem lookupStep_isSome_of_mem {src : List PipelineStep} {s : PipelineStep}
    (hs : s ∈ src) (u : String) (hu : s.properties.uuid = u) :
    (lookupStep src u).isSome := by
  rw [lookupStep, List.find?_isSome]
  exact ⟨s, hs, by simp [hu]⟩

theorem lookupStep_mem {src : List PipelineStep} {u : String} {st : PipelineStep}
    (h : lookupStep src u = some st) : st ∈ src :=
  List.mem_of_find?_eq_some h

theorem lookupStep_uuid {src : List PipelineStep} {u : String} {st : PipelineStep}
    (h : lookupStep src u = some st) : st.properties.uuid = u := by
  have := List.find?_some h
  simpa using this

/-- An ancestor of a step in the closure is itself in the closure. -/
theorem InClosure.of_ancestor {src : List PipelineStep} {sel : List String}
    {u x : String} (h : AncestorOf src u x) (hx : InClosure src sel x) :
    InClosure src sel u := by
  induction h with
  | parent u w st hlk hp => exact InClosure.up w u st hx hlk hp
  | up u w x st hlk hp hanc ih => exact InClosure.up w u st (ih hx) hlk hp

/-- The closure consists of the seeds together with the strict ancestors of
seeds. -/
theorem inClosure_iff (src : List PipelineStep) (sel : List String) (u : String) :
    InClosure src sel u ↔
      (SeedUuid src sel u ∨ ∃ x, SeedUuid src sel x ∧ AncestorOf src u x) := by
  constructor
  · intro h
    induction h with
    | seed s hs hsel =>
      exact Or.inl ⟨hsel, lookupStep_isSome_of_mem hs _ rfl⟩
    | up w u st hw hlk hp ih =>
      rcases ih with hseed | ⟨x, hx, hanc⟩
      · exact Or.inr ⟨w, hseed, AncestorOf.parent u w st hlk hp⟩
      · exact Or.inr ⟨x, hx, AncestorOf.up u w x st hlk hp hanc⟩
  · intro h
    rcases h with ⟨hsel, hsome⟩ | ⟨x, ⟨hxsel, hxsome⟩, hanc⟩
    · rcases Option.isSome_iff_exists.mp hsome with ⟨st, hst⟩
      have := @InClosure.seed src sel st (lookupStep_mem hst)
        (by rw [lookupStep_uuid hst]; exact hsel)
      rwa [lookupStep_uuid hst] at this
    · rcases Option.isSome_iff_exists.mp hxsome with ⟨st, hst⟩
      have hx : InClosure src sel x := by
        have := @InClosure.seed src sel st (lookupStep_mem hst)
          (by rw [lookupStep_uuid hst]; exact hxsel)
        rwa [lookupStep_uuid hst] at this
      exact InClosure.of_ancestor hanc hx

/-- With an empty worklist, the invariants force every resolvable closure
member to have been visited. -/
theorem closure_complete (src : List PipelineStep) (sel : List String) (visited : List String)
    (hA : ∀ x, SeedUuid src sel x → x ∈ visited)
    (hB : ∀ v ∈ visited, ∀ st, lookupStep src v = some st →
      ∀ p ∈ st.parents, (lookupStep src p).isSome → p ∈ visited) :
    ∀ u, InClosure src sel u → (lookupStep src u).isSome → u ∈ visited := by
  intro u h
  induction h with
  | seed s hs hsel =>
    intro _
    exact hA _ ⟨hsel, lookupStep_isSome_of_mem hs _ rfl⟩
  | up w u st hw hlk hp ih =>
    intro hsome
    have hwvis : w ∈ visited := ih (by rw [hlk]; rfl)
    exact hB w hwvis st hlk u hp hsome

/-- Invariant-carrying specification of the worklist: the uuids of the result
are exactly the resolvable members of the ancestor closure, without
duplicates. -/
theorem incomingLoop_spec (src : List PipelineStep) (sel : List String) :
    ∀ stack visited acc,
      (uuidsOf acc = visited) →
      visited.Nodup →
      (∀ v ∈ visited, InClosure src sel v) →
      (∀ v ∈ visited, (lookupStep src v).isSome) →
      (∀ u ∈ stack, InClosure src sel u) →
      (∀ x, SeedUuid src sel x → x ∈ visited ∨ x ∈ stack) →
      (∀ v ∈ visited, ∀ st, lookupStep src v = some st →
        ∀ p ∈ st.parents, (lookupStep src p).isSome → p ∈ visited ∨ p ∈ stack) →
      (uuidsOf (incomingLoop src sel stack visited acc)).Nodup ∧
      (∀ u, u ∈ uuidsOf (incomingLoop src sel stack visited acc) ↔
        (InClosure src sel u ∧ (lookupStep src u).isSome)) := by
  intro stack visited acc
  induction stack, visited, acc using incomingLoop.induct src sel with
  | case1 visited acc =>
    intro hacc hnd hvc hvs _ hA hB
    rw [incomingLoop_nil, hacc]
    refine ⟨hnd, fun u => ⟨fun hu => ⟨hvc u hu, hvs u hu⟩, fun ⟨h1, h2⟩ => ?_⟩⟩
    exact closure_complete src sel visited
      (fun x hx => (hA x hx).resolve_right (fun hc => absurd hc (List.not_mem_nil x)))
      (fun v hv st hst p hp hps =>
        (hB v hv st hst p hp hps).resolve_right (fun hc => absurd hc (List.not_mem_nil p)))
      u h1 h2
  | case2 u stack visited acc hvis ih =>
    intro hacc hnd hvc hvs hst hA hB
    rw [incomingLoop_cons_visited src sel u stack visited acc hvis]
    have humem : u ∈ visited := by simpa using hvis
    exact ih hacc hnd hvc hvs
      (fun x hx => hst x (List.mem_cons_of_mem u hx))
      (fun x hx => by
        rcases hA x hx with h | h
        · exact Or.inl h
        · rcases List.mem_cons.mp h with rfl | h
          · exact Or.inl humem
          · exact Or.inr h)
      (fun v hv st2 hst2 p hp hps => by
        rcases hB v hv st2 hst2 p hp hps with h | h
        · exact Or.inl h
        · rcases List.mem_cons.mp h with rfl | h
          · exact Or.inl humem
          · exact Or.inr h)
  | case3 u stack visited acc hvis hmiss ih =>
    intro hacc hnd hvc hvs hst hA hB
    have hvis' : visited.contains u = false := Bool.eq_false_iff.mpr hvis
    rw [incomingLoop_cons_miss src sel u stack visited acc hvis' hmiss]
    exact ih hacc hnd hvc hvs
      (fun x hx => hst x (List.mem_cons_of_mem u hx))
      (fun x hx => by
        rcases hA x hx with h | h
        · exact Or.inl h
        · rcases List.mem_cons.mp h with rfl | h
          · exact absurd hx.2 (by rw [hmiss]; simp)
          · exact Or.inr h)
      (fun v hv st2 hst2 p hp hps => by
        rcases hB v hv st2 hst2 p hp hps with h | h
        · exact Or.inl h
        · rcases List.mem_cons.mp h with rfl | h
          · exact absurd hps (by rw [hmiss]; simp)
          · exact Or.inr h)
  | case4 u stack visited acc hvis st hlk new_step ih =>
    intro hacc hnd hvc hvs hst hA hB
    have hvis' : visited.contains u = false := Bool.eq_false_iff.mpr hvis
    have humem : u ∉ visited := by simpa using hvis
    have hucl : InClosure src sel u := hst u (List.mem_cons_self u stack)
    have huuid : st.properties.uuid = u := lookupStep_uuid hlk
    rw [incomingLoop_cons_step src sel u stack visited acc st hvis' hlk]
    refine ih ?_ ?_ ?_ ?_ ?_ ?_ ?_
    · show uuidsOf (_ :: acc) = u :: visited
      simp only [uuidsOf, List.map_cons] at hacc ⊢
      rw [hacc]
      congr 1
    · exact List.nodup_cons.mpr ⟨humem, hnd⟩
    · intro v hv
      rcases List.mem_cons.mp hv with rfl | hv
      · exact hucl
      · exact hvc v hv
    · intro v hv
      rcases List.mem_cons.mp hv with rfl | hv
      · rw [hlk]; rfl
      · exact hvs v hv
    · intro p hp
      rcases List.mem_append.mp hp with hp | hp
      · exact InClosure.up u p st hucl hlk hp
      · exact hst p (List.mem_cons_of_mem u hp)
    · intro x hx
      rcases hA x hx with h | h
      · exact Or.inl (List.mem_cons_of_mem u h)
      · rcases List.mem_cons.mp h with rfl | h
        · exact Or.inl (List.mem_cons_self x visited)
        · exact Or.inr (List.mem_append.mpr (Or.inr h))
    · intro v hv st2 hst2 p hp hps
      rcases List.mem_cons.mp hv with rfl | hv
      · rw [hlk] at hst2
        cases hst2
        exact Or.inr (List.mem_append.mpr (Or.inl hp))
      · rcases hB v hv st2 hst2 p hp hps with h | h
        · exact Or.inl (List.mem_cons_of_mem u h)
        · rcases List.mem_cons.mp h with rfl | h
          · exact Or.inl (List.mem_cons_self p visited)
          · exact Or.inr (List.mem_append.mpr (Or.inr h))

theorem mem_uuidsOf (l : List PipelineStep) (u : String) :
    u ∈ uuidsOf l ↔ ∃ s, s ∈ l ∧ s.properties.uuid = u := by
  simp [uuidsOf]

/-- The steps returned by `incoming` with `inclusive = false` carry exactly
the resolvable closure uuids outside the selection, each once. -/
theorem incoming_exclusive_mem (pl : Pipeline) (sel : List String) :
    (uuidsOf (pl.incoming sel false).steps).Nodup ∧
    (∀ u, u ∈ uuidsOf (pl.incoming sel false).steps ↔
      (InClosure pl.steps sel u ∧ (lookupStep pl.steps u).isSome ∧ u ∉ sel)) := by
  have hspec := incomingLoop_spec pl.steps sel
      (uuidsOf (pl.steps.filter (fun s => sel.contains s.properties.uuid))) [] []
      rfl List.nodup_nil
      (by intro v hv; exact absurd hv (List.not_mem_nil v))
      (by intro v hv; exact absurd hv (List.not_mem_nil v))
      (by
        intro x hx
        rcases (mem_uuidsOf _ x).mp hx with ⟨s, hs, hux⟩
        rcases List.mem_filter.mp hs with ⟨hmem, hself⟩
        have hsel : s.properties.uuid ∈ sel := by simpa using hself
        have := InClosure.seed s hmem hsel
        rwa [hux] at this)
      (by
        intro x hx
        refine Or.inr ?_
        rcases Option.isSome_iff_exists.mp hx.2 with ⟨st, hst⟩
        refine (mem_uuidsOf _ x).mpr ⟨st, List.mem_filter.mpr ⟨lookupStep_mem hst, ?_⟩,
          lookupStep_uuid hst⟩
        rw [lookupStep_uuid hst]
        simpa using hx.1)
      (by intro v hv; exact absurd hv (List.not_mem_nil v))
  have hsteps : uuidsOf (pl.incoming sel false).steps =
      uuidsOf ((incomingLoop pl.steps sel
          (uuidsOf (pl.steps.filter (fun s => sel.contains s.properties.uuid))) [] []).filter
        (fun s => !(uuidsOf (pl.steps.filter
            (fun s2 => sel.contains s2.properties.uuid))).contains s.properties.uuid)) := by
    simp only [Pipeline.incoming, Bool.false_eq_true, if_false, uuidsOf, List.map_map]
    rfl
  constructor
  · rw [hsteps]
    exact hspec.1.sublist ((List.filter_sublist _).map _)
  · intro u
    rw [hsteps]
    rw [mem_uuidsOf]
    constructor
    · rintro ⟨s, hs, hsu⟩
      rcases List.mem_filter.mp hs with ⟨hmem, hkeep⟩
      have hclosure := (hspec.2 u).mp ((mem_uuidsOf _ u).mpr ⟨s, hmem, hsu⟩)
      refine ⟨hclosure.1, hclosure.2, ?_⟩
      intro husel
      rw [hsu] at hkeep
      rcases Option.isSome_iff_exists.mp hclosure.2 with ⟨st, hst⟩
      have : u ∈ uuidsOf (pl.steps.filter (fun s2 => sel.contains s2.properties.uuid)) := by
        refine (mem_uuidsOf _ u).mpr ⟨st, List.mem_filter.mpr ⟨lookupStep_mem hst, ?_⟩,
          lookupStep_uuid hst⟩
        rw [lookupStep_uuid hst]
        simpa using husel
      simp only [Bool.not_eq_true'] at hkeep
      rw [Bool.eq_false_iff] at hkeep
      exact hkeep (by simpa using this)
    · rintro ⟨h1, h2, h3⟩
      rcases (mem_uuidsOf _ u).mp ((hspec.2 u).mpr ⟨h1, h2⟩) with ⟨s, hs, hsu⟩
      refine ⟨s, List.mem_filter.mpr ⟨hs, ?_⟩, hsu⟩
      rw [hsu]
      simp only [Bool.not_eq_true']
      rw [Bool.eq_false_iff]
      intro hc
      have : u ∈ uuidsOf (pl.steps.filter (fun s2 => sel.contains s2.properties.uuid)) := by
        simpa using hc
      rcases (mem_uuidsOf _ u).mp this with ⟨s2, hs2, hs2u⟩
      rcases List.mem_filter.mp hs2 with ⟨_, hself⟩
      rw [hs2u] at hself
      exact h3 (by simpa using hself)

/-- Step properties for the concrete test pipelines (no extra metadata). -/
def mkProps (u : String) (inc : List String) : PipelineStepProperties :=
  { uuid := u, title := u, file_path := u ++ ".py", environment := "env"
    incoming_connections := inc, extra := [] }

/-- The chain `A → B → C` of the documented edge case, all optional top-level
keys present. -/
def chainDef : PipelineDefinition :=
  { uuid := "pl", name := "chain", settings := "s", version := some "1"
    parameters := some "p", services := some "sv"
    steps := [("A", mkProps "A" []), ("B", mkProps "B" ["A"]), ("C", mkProps "C" ["B"])]
    extra := [] }

/-- The in-memory pipeline `from_json` builds for `chainDef`. -/
def chainPl : Pipeline :=
  { steps :=
      [ { properties := mkProps "A" [], parents := [], children := ["B"] }
      , { properties := mkProps "B" ["A"], parents := ["A"], children := ["C"] }
      , { properties := mkProps "C" ["B"], parents := ["B"], children := [] } ]
    properties :=
      { name := "chain", uuid := "pl", settings := "s", parameters := "p"
        services := "sv", version := some "1" } }

theorem from_json_chainDef : Pipeline.from_json chainDef = Except.ok chainPl := by decide

/-- C2: for every pipeline and selection, `incoming` with `inclusive = false`
returns exactly the strict ancestors of the selected steps (steps from which a
non-empty directed path of parent edges reaches a selected step), excluding
the selected steps themselves, each exactly once; in particular on the chain
`A → B → C` with selection `{B, C}` the result is exactly `{A}`. -/
theorem c2_incoming_exclusive_strict_ancestors :
    (∀ (pl : Pipeline) (sel : List String) (u : String),
        u ∈ uuidsOf (pl.incoming sel false).steps ↔
          ((∃ x, SeedUuid pl.steps sel x ∧ AncestorOf pl.steps u x) ∧
            (lookupStep pl.steps u).isSome ∧ u ∉ sel)) ∧
    (∀ (pl : Pipeline) (sel : List String), (uuidsOf (pl.incoming sel false).steps).Nodup) ∧
    (Pipeline.from_json chainDef).map (fun pl => uuidsOf (pl.incoming ["B", "C"] false).steps)
      = Except.ok ["A"] := by
  refine ⟨?_, fun pl sel => (incoming_exclusive_mem pl sel).1, ?_⟩
  · intro pl sel u
    rw [(incoming_exclusive_mem pl sel).2 u]
    constructor
    · rintro ⟨h1, h2, h3⟩
      rcases (inClosure_iff pl.steps sel u).mp h1 with hseed | hanc
      · exact absurd hseed.1 h3
      · exact ⟨hanc, h2, h3⟩
    · rintro ⟨hanc, h2, h3⟩
      exact ⟨(inClosure_iff pl.steps sel u).mpr (Or.inr hanc), h2, h3⟩
  · rw [from_json_chainDef]
    show Except.ok (uuidsOf (chainPl.incoming ["B", "C"] false).steps) = Except.ok ["A"]
    simp [Pipeline.incoming, incomingLoop_cons, incomingLoop_nil, lookupStep, chainPl,
      uuidsOf, mkProps]


/-- A two-step description whose parent relation is a cycle:
`A.incoming = [B]`, `B.incoming = [A]`. -/
def cycDef : PipelineDefinition :=
  { uuid := "pl", name := "cyc", settings := "s", version := some "1"
    parameters := some "p", services := some "sv"
    steps := [("A", mkProps "A" ["B"]), ("B", mkProps "B" ["A"])]
    extra := [] }

/-- The pipeline `from_json` happily builds for the cyclic description. -/
def cycPl : Pipeline :=
  { steps :=
      [ { properties := mkProps "A" ["B"], parents := ["B"], children := ["B"] }
      , { properties := mkProps "B" ["A"], parents := ["A"], children := ["A"] } ]
    properties :=
      { name := "cyc", uuid := "pl", settings := "s", parameters := "p"
        services := "sv", version := some "1" } }

/-- A description with a dangling `incoming_connections` reference. -/
def badRefDef : PipelineDefinition :=
  { uuid := "pl", name := "bad", settings := "s", version := some "1"
    parameters := some "p", services := some "sv"
    steps := [("A", mkProps "A" ["Z"])]
    extra := [] }

theorem mapOption_eq_none {α β : Type} (f : α → Option β) (l : List α) :
    mapOption f l = none ↔ ∃ a, a ∈ l ∧ f a = none := by
  induction l with
  | nil => simp [mapOption]
  | cons a t ih =>
    rw [mapOption]
    cases hfa : f a with
    | none =>
      simp only [Option.none_bind]
      constructor
      · intro _
        exact ⟨a, List.mem_cons_self a t, hfa⟩
      · intro _
        trivial
    | some b =>
      simp only [Option.some_bind]
      cases hmt : mapOption f t with
      | none =>
        simp only [Option.map_none']
        constructor
        · intro _
          rcases ih.mp hmt with ⟨x, hx, hfx⟩
          exact ⟨x, List.mem_cons_of_mem a hx, hfx⟩
        · intro _
          trivial
      | some bs =>
        simp only [Option.map_some']
        constructor
        · intro hc
          cases hc
        · rintro ⟨x, hx, hfx⟩
          rcases List.mem_cons.mp hx with rfl | hx
          · rw [hfa] at hfx
            cases hfx
          · rw [ih.mpr ⟨x, hx, hfx⟩] at hmt
            cases hmt

theorem mapOption_mem {α β : Type} (f : α → Option β) :
    ∀ (l : List α) (ys : List β), mapOption f l = some ys →
      ∀ y ∈ ys, ∃ a, a ∈ l ∧ f a = some y := by
  intro l
  induction l with
  | nil =>
    intro ys h y hy
    rw [mapOption] at h
    cases h
    cases hy
  | cons a t ih =>
    intro ys h y hy
    rw [mapOption] at h
    cases hfa : f a with
    | none =>
      rw [hfa, Option.none_bind] at h
      cases h
    | some b =>
      rw [hfa, Option.some_bind] at h
      cases hmt : mapOption f t with
      | none =>
        rw [hmt, Option.map_none'] at h
        cases h
      | some bs =>
        rw [hmt, Option.map_some'] at h
        cases h
        rcases List.mem_cons.mp hy with rfl | hy
        · exact ⟨a, List.mem_cons_self a t, hfa⟩
        · rcases ih bs hmt y hy with ⟨x, hx, hfx⟩
          exact ⟨x, List.mem_cons_of_mem a hx, hfx⟩

theorem mapOption_map_congr {α β γ : Type} (f : α → Option β) (g : β → γ) (g2 : α → γ) :
    ∀ (l : List α) (ys : List β), mapOption f l = some ys →
      (∀ a b, f a = some b → g b = g2 a) → ys.map g = l.map g2 := by
  intro l
  induction l with
  | nil =>
    intro ys h _
    rw [mapOption] at h
    cases h
    rfl
  | cons a t ih =>
    intro ys h hg
    rw [mapOption] at h
    cases hfa : f a with
    | none =>
      rw [hfa, Option.none_bind] at h
      cases h
    | some b =>
      rw [hfa, Option.some_bind] at h
      cases hmt : mapOption f t with
      | none =>
        rw [hmt, Option.map_none'] at h
        cases h
      | some bs =>
        rw [hmt, Option.map_some'] at h
        cases h
        rw [List.map_cons, List.map_cons, hg a b hfa, ih bs hmt hg]

theorem buildStep_eq_none_iff (d : PipelineDefinition) (kv : String × PipelineStepProperties) :
    buildStep d kv = none ↔
      ∃ u, u ∈ kv.2.incoming_connections ∧ lookupKey d.steps u = none := by
  rw [buildStep, Option.map_eq_none']
  exact mapOption_eq_none _ _

theorem from_json_error_iff (d : PipelineDefinition) :
    Pipeline.from_json d = Except.error PyErr.keyError ↔
      ∃ kv, kv ∈ d.steps ∧ ∃ u, u ∈ kv.2.incoming_connections ∧
        lookupKey d.steps u = none := by
  rw [Pipeline.from_json]
  cases hm : mapOption (buildStep d) d.steps with
  | none =>
    constructor
    · intro _
      rcases (mapOption_eq_none _ _).mp hm with ⟨kv, hkv, hnone⟩
      exact ⟨kv, hkv, (buildStep_eq_none_iff d kv).mp hnone⟩
    · intro _
      rfl
  | some steps =>
    constructor
    · intro hc
      cases hc
    · rintro ⟨kv, hkv, u, hu, hlk⟩
      have hb : buildStep d kv = none := (buildStep_eq_none_iff d kv).mpr ⟨u, hu, hlk⟩
      rw [(mapOption_eq_none _ _).mpr ⟨kv, hkv, hb⟩] at hm
      cases hm

theorem from_json_ok_or_keyerror (d : PipelineDefinition) :
    (Pipeline.from_json d).isOk = true ∨
      Pipeline.from_json d = Except.error PyErr.keyError := by
  rw [Pipeline.from_json]
  cases hm : mapOption (buildStep d) d.steps with
  | none => exact Or.inr rfl
  | some steps => exact Or.inl rfl

/-- C1 counterexample: `from_json` accepts the cyclic description `cycDef`
(in which `A` is a strict ancestor of itself) and returns a pipeline instead
of raising, so `InvalidPipeline` is not raised "exactly when … the parent
relation … contains a cycle". -/
theorem c1_counterexample_cycle_accepted :
    Pipeline.from_json cycDef = Except.ok cycPl ∧ AncestorOf cycPl.steps "A" "A" := by
  refine ⟨by decide, ?_⟩
  have hA : lookupStep cycPl.steps "A" =
      some { properties := mkProps "A" ["B"], parents := ["B"], children := ["B"] } := by
    decide
  have hB : lookupStep cycPl.steps "B" =
      some { properties := mkProps "B" ["A"], parents := ["A"], children := ["A"] } := by
    decide
  have hBA : AncestorOf cycPl.steps "B" "A" :=
    AncestorOf.parent "B" "A" _ hA (by decide)
  exact AncestorOf.up "A" "B" "A" _ hB (by decide) hBA

/-- C1 (amended): `from_json` raises `KeyError` — there is no
`InvalidPipeline` — exactly when some step's `incoming_connections` lists a
UUID that is not a key of the description's steps dict; there is no cycle
check, so every description whose references resolve (cyclic or not) returns
a `Pipeline` without raising. -/
theorem c1_from_json_raises_keyerror_iff_dangling_reference :
    (∀ d : PipelineDefinition,
      Pipeline.from_json d = Except.error PyErr.keyError ↔
        ∃ kv, kv ∈ d.steps ∧ ∃ u, u ∈ kv.2.incoming_connections ∧
          lookupKey d.steps u = none) ∧
    (∀ d : PipelineDefinition,
      (Pipeline.from_json d).isOk = true ∨
        Pipeline.from_json d = Except.error PyErr.keyError) :=
  ⟨from_json_error_iff, from_json_ok_or_keyerror⟩

/-- C10 counterexample: with an unknown `run_type` but a definition whose
references do not resolve, `construct_pipeline` raises `KeyError` (from
`from_json`, which runs first), not `ValueError`. -/
theorem c10_counterexample_keyerror_before_valueerror :
    construct_pipeline [] "bogus" badRefDef = Except.error PyErr.keyError ∧
      construct_pipeline [] "bogus" badRefDef ≠ Except.error PyErr.valueError := by
  constructor
  · decide
  · decide

/-- C10 (amended): `construct_pipeline` raises `ValueError` exactly when
`from_json` succeeds and the `run_type` is none of `full`, `selection`,
`incoming` (a `from_json` failure propagates as `KeyError` first); `full`
returns the whole pipeline ignoring the selection; `incoming` returns
`pipeline.incoming(uuids, inclusive=False)`, whose steps never include the
selected uuids. -/
theorem c10_construct_pipeline_dispatch :
    (∀ (uuids : List String) (run_type : String) (d : PipelineDefinition),
        construct_pipeline uuids run_type d = Except.error PyErr.valueError ↔
          ((Pipeline.from_json d).isOk = true ∧
            run_type ≠ "full" ∧ run_type ≠ "selection" ∧ run_type ≠ "incoming")) ∧
    (∀ (uuids : List String) (d : PipelineDefinition) (pl : Pipeline),
        Pipeline.from_json d = Except.ok pl →
          construct_pipeline uuids "full" d = Except.ok pl) ∧
    (∀ (uuids : List String) (d : PipelineDefinition) (pl : Pipeline),
        Pipeline.from_json d = Except.ok pl →
          construct_pipeline uuids "incoming" d = Except.ok (pl.incoming uuids false)) ∧
    (∀ (uuids : List String) (d : PipelineDefinition) (pl : Pipeline),
        Pipeline.from_json d = Except.ok pl →
          ∀ u ∈ uuids, u ∉ uuidsOf (pl.incoming uuids false).steps) := by
  refine ⟨?_, ?_, ?_, ?_⟩
  · intro uuids run_type d
    rw [construct_pipeline]
    cases hfj : Pipeline.from_json d with
    | error e =>
      rw [except_bind_error]
      constructor
      · intro hc
        cases hc
        rcases from_json_ok_or_keyerror d with h | h
        · rw [hfj] at h
          simp [Except.isOk, Except.toBool] at h
        · rw [hfj] at h
          cases h
      · rintro ⟨hok, -⟩
        simp [Except.isOk, Except.toBool] at hok
    | ok pl =>
      rw [except_bind_ok]
      by_cases h1 : run_type = "full"
      · subst h1
        rw [if_pos (by decide : ((("full" : String) == "full") = true))]
        constructor
        · intro hc
          cases hc
        · rintro ⟨-, hne, -, -⟩
          exact absurd rfl hne
      · rw [if_neg (by simpa using h1)]
        by_cases h2 : run_type = "selection"
        · subst h2
          rw [if_pos (by decide : ((("selection" : String) == "selection") = true))]
          constructor
          · intro hc
            cases hc
          · rintro ⟨-, -, hne, -⟩
            exact absurd rfl hne
        · rw [if_neg (by simpa using h2)]
          by_cases h3 : run_type = "incoming"
          · subst h3
            rw [if_pos (by decide : ((("incoming" : String) == "incoming") = true))]
            constructor
            · intro hc
              cases hc
            · rintro ⟨-, -, -, hne⟩
              exact absurd rfl hne
          · rw [if_neg (by simpa using h3)]
            constructor
            · intro _
              exact ⟨rfl, h1, h2, h3⟩
            · intro _
              rfl
  · intro uuids d pl hfj
    rw [construct_pipeline, hfj, except_bind_ok]
    rfl
  · intro uuids d pl hfj
    rw [construct_pipeline, hfj, except_bind_ok]
    rfl

  · intro uuids d pl _ u hu hmem
    exact ((incoming_exclusive_mem pl uuids).2 u).mp hmem |>.2.2 hu

/-- C10 witness: the amended dispatch theorem applied to the concrete chain
pipeline. -/
theorem c10_witness :
    Pipeline.from_json chainDef = Except.ok chainPl ∧
      construct_pipeline ["B", "C"] "incoming" chainDef =
        Except.ok (chainPl.incoming ["B", "C"] false) :=
  ⟨by decide, c10_construct_pipeline_dispatch.2.2.1 ["B", "C"] chainDef chainPl (by decide)⟩

theorem buildStep_props (d : PipelineDefinition) (kv : String × PipelineStepProperties)
    (st : PipelineStep) (h : buildStep d kv = some st) : st.properties = kv.2 := by
  rw [buildStep] at h
  cases hm : mapOption (fun u => lookupKey d.steps u) kv.2.incoming_connections with
  | none =>
    rw [hm, Option.map_none'] at h
    cases h
  | some ps =>
    rw [hm, Option.map_some'] at h
    cases h
    rfl

theorem from_json_ok_props (d : PipelineDefinition) (pl : Pipeline)
    (h : Pipeline.from_json d = Except.ok pl) :
    pl.properties =
      { name := d.name, uuid := d.uuid, settings := d.settings
        parameters := d.parameters.getD emptyJsonObject
        services := d.services.getD emptyJsonObject
        version := d.version } ∧
    pl.steps.map (fun s => (s.properties.uuid, s.properties)) =
      d.steps.map (fun kv => (kv.2.uuid, kv.2)) := by
  rw [Pipeline.from_json] at h
  cases hm : mapOption (buildStep d) d.steps with
  | none =>
    rw [hm] at h
    cases h
  | some steps =>
    rw [hm] at h
    cases h
    refine ⟨rfl, ?_⟩
    exact mapOption_map_congr (buildStep d) (fun s => (s.properties.uuid, s.properties))
      (fun kv => (kv.2.uuid, kv.2)) d.steps steps hm
      (fun a b hab => by
        show (b.properties.uuid, b.properties) = (a.2.uuid, a.2)
        rw [buildStep_props d a b hab])

/-- Pairwise-set equality of two association lists, the "equal modulo key
ordering" reading for JSON objects (adequate for duplicate-free key sets). -/
def stepsEqAsJsonObjects (a b : List (String × PipelineStepProperties)) : Bool :=
  a.all (fun kv => b.contains kv) && b.all (fun kv => a.contains kv)

theorem stepsEqAsJsonObjects_self (l : List (String × PipelineStepProperties)) :
    stepsEqAsJsonObjects l l = true := by
  rw [stepsEqAsJsonObjects, Bool.and_self]
  rw [List.all_eq_true]
  intro kv hkv
  simpa using hkv

/-- Formalization of the spec's "`from_json(p).to_dict()` equals `p` modulo
key ordering": the same seven top-level keys with equal values (`version`
compared as present-with-value, because `to_dict` always emits the key), no
further top-level keys, and the `steps` dicts equal as sets of key/value
pairs. -/
def pipelineDefEqDict (d : PipelineDefinition) (t : PipelineDict) : Bool :=
  d.extra.isEmpty
  && (d.name == t.name) && (d.uuid == t.uuid) && (d.settings == t.settings)
  && (d.parameters == some t.parameters)
  && (d.services == some t.services)
  && (match d.version, t.version with
      | some v, some w => v == w
      | _, _ => false)
  && stepsEqAsJsonObjects d.steps t.steps

/-- A description accepted by `from_json` that lacks the optional
`parameters` key. -/
def noParamsDef : PipelineDefinition :=
  { uuid := "pl", name := "n", settings := "s", version := some "1"
    parameters := none, services := some "sv", steps := [], extra := [] }

/-- C7 counterexample: `from_json` accepts `noParamsDef` (no `parameters`
key), but `to_dict` emits `parameters` anyway, so the round trip is not the
identity modulo key ordering. -/
theorem c7_counterexample_missing_parameters_key :
    (Pipeline.from_json noParamsDef).map
        (fun pl => pipelineDefEqDict noParamsDef pl.to_dict) = Except.ok false := by
  decide

/-- C7 (amended): the round trip `from_json(p).to_dict() = p` (modulo key
ordering) holds precisely for descriptions that already carry the
always-serialized keys: when `parameters`, `services` and `version` are
present, no extra top-level keys exist, every step is keyed by its own uuid,
and `from_json` accepts `p`. -/
theorem c7_round_trip (d : PipelineDefinition) (pl : Pipeline)
    (hok : Pipeline.from_json d = Except.ok pl)
    (hextra : d.extra = [])
    (hparams : d.parameters.isSome = true)
    (hservices : d.services.isSome = true)
    (hversion : d.version.isSome = true)
    (hkeys : ∀ kv ∈ d.steps, kv.2.uuid = kv.1) :
    pipelineDefEqDict d pl.to_dict = true := by
  rcases from_json_ok_props d pl hok with ⟨hprops, hsteps⟩
  have htd : pl.to_dict =
      { steps := d.steps.map (fun kv => (kv.2.uuid, kv.2))
        name := d.name, uuid := d.uuid, settings := d.settings
        parameters := d.parameters.getD emptyJsonObject
        services := d.services.getD emptyJsonObject
        version := d.version } := by
    rw [Pipeline.to_dict, hprops, hsteps]
  have hstepsid : d.steps.map (fun kv => (kv.2.uuid, kv.2)) = d.steps := by
    have : ∀ kv ∈ d.steps, (fun kv2 => (kv2.2.uuid, kv2.2)) kv = id kv := by
      intro kv hkv
      show (kv.2.uuid, kv.2) = kv
      rw [hkeys kv hkv]
    rw [List.map_congr_left this, List.map_id]
  rw [htd, pipelineDefEqDict]
  rcases Option.isSome_iff_exists.mp hparams with ⟨p0, hp0⟩
  rcases Option.isSome_iff_exists.mp hservices with ⟨s0, hs0⟩
  rcases Option.isSome_iff_exists.mp hversion with ⟨v0, hv0⟩
  rw [hextra, hp0, hs0, hv0, hstepsid]
  simp [stepsEqAsJsonObjects_self, Option.getD]

/-- C7 witness: the amended round-trip theorem at the concrete chain
description. -/
theorem c7_witness :
    Pipeline.from_json chainDef = Except.ok chainPl ∧
      pipelineDefEqDict chainDef chainPl.to_dict = true :=
  ⟨by decide, c7_round_trip chainDef chainPl (by decide) (by decide) (by decide)
    (by decide) (by decide) (by decide)⟩

theorem lookupKey_mem {α : Type} {m : List (String × α)} {k : String} {v : α}
    (h : lookupKey m k = some v) : ∃ kv, kv ∈ m ∧ kv.1 = k ∧ kv.2 = v := by
  rw [lookupKey] at h
  cases hf : m.find? (fun kv => kv.1 == k) with
  | none =>
    rw [hf, Option.map_none'] at h
    cases h
  | some kv =>
    rw [hf, Option.map_some'] at h
    cases h
    refine ⟨kv, List.mem_of_find?_eq_some hf, ?_, rfl⟩
    have := List.find?_some hf
    simpa using this

theorem mapOption_isSome {α β : Type} (f : α → Option β) (l : List α) (ys : List β)
    (h : mapOption f l = some ys) : ∀ a ∈ l, (f a).isSome = true := by
  intro a ha
  cases hfa : f a with
  | none =>
    rw [(mapOption_eq_none f l).mpr ⟨a, ha, hfa⟩] at h
    cases h
  | some b => rfl

/-- The steps of the inclusive `incoming` result are the raw worklist
output. -/
theorem incoming_true_steps (pl : Pipeline) (sel : List String) :
    (pl.incoming sel true).steps =
      incomingLoop pl.steps sel
        (uuidsOf (pl.steps.filter (fun s => sel.contains s.properties.uuid))) [] [] := rfl

/-- Every step emitted by the worklist (starting from an empty accumulator)
is a copy of a pipeline step whose `incoming_connections` and `parents` both
equal that step's `parents`. -/
theorem incomingLoop_acc_shape (src : List PipelineStep) (sel : List String) :
    ∀ stack visited acc, ∀ s ∈ incomingLoop src sel stack visited acc,
      s ∈ acc ∨ ∃ st, lookupStep src s.properties.uuid = some st ∧
        s.properties.incoming_connections = st.parents ∧ s.parents = st.parents := by
  intro stack visited acc
  induction stack, visited, acc using incomingLoop.induct src sel with
  | case1 visited acc =>
    intro s hs
    rw [incomingLoop_nil] at hs
    exact Or.inl hs
  | case2 u stack visited acc hvis ih =>
    intro s hs
    rw [incomingLoop_cons_visited src sel u stack visited acc hvis] at hs
    exact ih s hs
  | case3 u stack visited acc hvis hmiss ih =>
    intro s hs
    rw [incomingLoop_cons_miss src sel u stack visited acc
      (Bool.eq_false_iff.mpr hvis) hmiss] at hs
    exact ih s hs
  | case4 u stack visited acc hvis st hlk new_step ih =>
    intro s hs
    rw [incomingLoop_cons_step src sel u stack visited acc st
      (Bool.eq_false_iff.mpr hvis) hlk] at hs
    rcases ih s hs with h | h
    · rcases List.mem_cons.mp h with rfl | h
      · refine Or.inr ⟨st, ?_, rfl, rfl⟩
        show lookupStep src st.properties.uuid = some st
        rw [lookupStep_uuid hlk]
        exact hlk
      · exact Or.inl h
    · exact Or.inr h

/-- Every step of an `incoming` result (either mode) is a copy of a pipeline
step; its `incoming_connections` and `parents` both equal the source step's
`parents`. -/
theorem incoming_steps_shape (pl : Pipeline) (sel : List String) (inclusive : Bool) :
    ∀ s ∈ (pl.incoming sel inclusive).steps,
      ∃ st, lookupStep pl.steps s.properties.uuid = some st ∧
        s.properties.incoming_connections = st.parents ∧ s.parents = st.parents := by
  cases inclusive with
  | true =>
    intro s hs
    rw [incoming_true_steps] at hs
    rcases incomingLoop_acc_shape pl.steps sel _ [] [] s hs with h | h
    · exact absurd h (List.not_mem_nil s)
    · exact h
  | false =>
    intro s hs
    have hs2 : ∃ s0, s0 ∈ incomingLoop pl.steps sel
        (uuidsOf (pl.steps.filter (fun s1 => sel.contains s1.properties.uuid))) [] [] ∧
        s0.properties = s.properties ∧ s0.parents = s.parents := by
      rcases List.mem_map.mp hs with ⟨s0, hs0, hfs0⟩
      rcases List.mem_filter.mp hs0 with ⟨hs0mem, -⟩
      exact ⟨s0, hs0mem, by rw [← hfs0], by rw [← hfs0]⟩
    rcases hs2 with ⟨s0, hs0, hprops, hpars⟩
    rcases incomingLoop_acc_shape pl.steps sel _ [] [] s0 hs0 with h | h
    · exact absurd h (List.not_mem_nil s0)
    · rcases h with ⟨st, h1, h2, h3⟩
      rw [hprops] at h1 h2
      rw [hpars] at h3
      exact ⟨st, h1, h2, h3⟩

/-- The steps of `incoming` with `inclusive = true` carry exactly the
resolvable closure uuids, each once. -/
theorem incoming_inclusive_mem (pl : Pipeline) (sel : List String) :
    (uuidsOf (pl.incoming sel true).steps).Nodup ∧
    (∀ u, u ∈ uuidsOf (pl.incoming sel true).steps ↔
      (InClosure pl.steps sel u ∧ (lookupStep pl.steps u).isSome)) := by
  have hspec := incomingLoop_spec pl.steps sel
      (uuidsOf (pl.steps.filter (fun s => sel.contains s.properties.uuid))) [] []
      rfl List.nodup_nil
      (by intro v hv; exact absurd hv (List.not_mem_nil v))
      (by intro v hv; exact absurd hv (List.not_mem_nil v))
      (by
        intro x hx
        rcases (mem_uuidsOf _ x).mp hx with ⟨s, hs, hux⟩
        rcases List.mem_filter.mp hs with ⟨hmem, hself⟩
        have hsel : s.properties.uuid ∈ sel := by simpa using hself
        have := InClosure.seed s hmem hsel
        rwa [hux] at this)
      (by
        intro x hx
        refine Or.inr ?_
        rcases Option.isSome_iff_exists.mp hx.2 with ⟨st, hst⟩
        refine (mem_uuidsOf _ x).mpr ⟨st, List.mem_filter.mpr ⟨lookupStep_mem hst, ?_⟩,
          lookupStep_uuid hst⟩
        rw [lookupStep_uuid hst]
        simpa using hx.1)
      (by intro v hv; exact absurd hv (List.not_mem_nil v))
  rw [incoming_true_steps]
  exact hspec

theorem buildStep_parents_eq (d : PipelineDefinition) (kv : String × PipelineStepProperties)
    (st : PipelineStep) (h : buildStep d kv = some st)
    (hkeys : ∀ kv2 ∈ d.steps, kv2.2.uuid = kv2.1) :
    st.parents = kv.2.incoming_connections := by
  rw [buildStep] at h
  cases hm : mapOption (fun u => lookupKey d.steps u) kv.2.incoming_connections with
  | none =>
    rw [hm, Option.map_none'] at h
    cases h
  | some ps =>
    rw [hm, Option.map_some'] at h
    cases h
    show ps.map (fun p => p.uuid) = kv.2.incoming_connections
    have hcg := mapOption_map_congr (fun u => lookupKey d.steps u) (fun p => p.uuid) id
      kv.2.incoming_connections ps hm
      (fun a b hab => by
        rcases lookupKey_mem hab with ⟨kv2, hkv2, h1, h2⟩
        show b.uuid = a
        rw [← h2, hkeys kv2 hkv2, h1])
    rw [hcg, List.map_id]

theorem buildStep_refs_isSome (d : PipelineDefinition) (kv : String × PipelineStepProperties)
    (st : PipelineStep) (h : buildStep d kv = some st) :
    ∀ u ∈ kv.2.incoming_connections, (lookupKey d.steps u).isSome = true := by
  rw [buildStep] at h
  cases hm : mapOption (fun u => lookupKey d.steps u) kv.2.incoming_connections with
  | none =>
    rw [hm, Option.map_none'] at h
    cases h
  | some ps => exact mapOption_isSome _ _ ps hm

theorem from_json_ok_steps_mem (d : PipelineDefinition) (pl : Pipeline)
    (h : Pipeline.from_json d = Except.ok pl) :
    ∀ s ∈ pl.steps, ∃ kv, kv ∈ d.steps ∧ buildStep d kv = some s := by
  rw [Pipeline.from_json] at h
  cases hm : mapOption (buildStep d) d.steps with
  | none =>
    rw [hm] at h
    cases h
  | some steps =>
    rw [hm] at h
    cases h
    exact mapOption_mem (buildStep d) d.steps steps hm

theorem from_json_uuids (d : PipelineDefinition) (pl : Pipeline)
    (h : Pipeline.from_json d = Except.ok pl) :
    uuidsOf pl.steps = d.steps.map (fun kv => kv.2.uuid) := by
  have h2 := (from_json_ok_props d pl h).2
  have h3 := congrArg (List.map Prod.fst) h2
  simpa [uuidsOf, List.map_map, Function.comp] using h3

theorem uuidsOf_induced (pl : Pipeline) (sel : List String) :
    uuidsOf (pl.get_induced_subgraph sel).steps =
      uuidsOf (pl.steps.filter (fun s => sel.contains s.properties.uuid)) := by
  show uuidsOf (List.map _ (pl.steps.filter (fun s => sel.contains s.properties.uuid))) = _
  rw [uuidsOf, uuidsOf, List.map_map]
  rfl

/-- The `P → V → T` pipeline of the C3 counterexample. -/
def pvtDef : PipelineDefinition :=
  { uuid := "pl", name := "pvt", settings := "s", version := some "1"
    parameters := some "p", services := some "sv"
    steps := [("P", mkProps "P" []), ("V", mkProps "V" ["P"]), ("T", mkProps "T" ["V"])]
    extra := [] }

/-- The in-memory pipeline `from_json` builds for `pvtDef`. -/
def pvtPl : Pipeline :=
  { steps :=
      [ { properties := mkProps "P" [], parents := [], children := ["V"] }
      , { properties := mkProps "V" ["P"], parents := ["P"], children := ["T"] }
      , { properties := mkProps "T" ["V"], parents := ["V"], children := [] } ]
    properties :=
      { name := "pvt", uuid := "pl", settings := "s", parameters := "p"
        services := "sv", version := some "1" } }

/-- C3 counterexample: on `P → V → T` with selection `\x7bP, T\x7d`,
`incoming(…, inclusive=False)` returns the single step `V` whose
`incoming_connections` still lists `P`, a uuid with no step in the result. -/
theorem c3_counterexample_incoming_exclusive_dangling :
    Pipeline.from_json pvtDef = Except.ok pvtPl ∧
    (pvtPl.incoming ["P", "T"] false).steps.map
        (fun s => (s.properties.uuid, s.properties.incoming_connections)) = [("V", ["P"])] ∧
    "P" ∉ uuidsOf (pvtPl.incoming ["P", "T"] false).steps := by
  refine ⟨by decide, ?_, ?_⟩
  · simp [Pipeline.incoming, incomingLoop_cons, incomingLoop_nil, lookupStep, pvtPl,
      uuidsOf, mkProps]
  · simp [Pipeline.incoming, incomingLoop_cons, incomingLoop_nil, lookupStep, pvtPl,
      uuidsOf, mkProps]

/-- C3 (amended): after every transform each step's `incoming_connections`
equals the uuid list of its `parents` (for `from_json` provided the steps
dict is keyed by the steps' own uuids); every listed uuid resolves to a step
of the result for `from_json` (uuid-keyed), for `get_induced_subgraph`, and
for `incoming` with `inclusive = true` on reference-closed pipelines — but
not for `incoming` with `inclusive = false`, whose steps may keep references
to dropped selection steps. -/
theorem c3_adjacency_after_transforms :
    (∀ (d : PipelineDefinition) (pl : Pipeline), Pipeline.from_json d = Except.ok pl →
      (∀ kv ∈ d.steps, kv.2.uuid = kv.1) →
      ∀ s ∈ pl.steps, s.properties.incoming_connections = s.parents) ∧
    (∀ (d : PipelineDefinition) (pl : Pipeline), Pipeline.from_json d = Except.ok pl →
      (∀ kv ∈ d.steps, kv.2.uuid = kv.1) →
      ∀ s ∈ pl.steps, ∀ u ∈ s.properties.incoming_connections, u ∈ uuidsOf pl.steps) ∧
    (∀ (pl : Pipeline) (sel : List String),
      ∀ s ∈ (pl.get_induced_subgraph sel).steps,
        s.properties.incoming_connections = s.parents) ∧
    (∀ (pl : Pipeline) (sel : List String),
      ∀ s ∈ (pl.get_induced_subgraph sel).steps, ∀ u ∈ s.properties.incoming_connections,
        u ∈ uuidsOf (pl.get_induced_subgraph sel).steps) ∧
    (∀ (pl : Pipeline) (sel : List String) (inclusive : Bool),
      ∀ s ∈ (pl.incoming sel inclusive).steps,
        s.properties.incoming_connections = s.parents) ∧
    (∀ (pl : Pipeline) (sel : List String),
      (∀ s ∈ pl.steps, ∀ p ∈ s.parents, (lookupStep pl.steps p).isSome = true) →
      ∀ s ∈ (pl.incoming sel true).steps, ∀ u ∈ s.properties.incoming_connections,
        u ∈ uuidsOf (pl.incoming sel true).steps) := by
  refine ⟨?_, ?_, ?_, ?_, ?_, ?_⟩
  · intro d pl hok hkeys s hs
    rcases from_json_ok_steps_mem d pl hok s hs with ⟨kv, hkv, hbs⟩
    have h1 := buildStep_props d kv s hbs
    have h2 := buildStep_parents_eq d kv s hbs hkeys
    rw [h1, h2]
  · intro d pl hok hkeys s hs u hu
    rcases from_json_ok_steps_mem d pl hok s hs with ⟨kv, hkv, hbs⟩
    have h1 := buildStep_props d kv s hbs
    rw [h1] at hu
    have hsome := buildStep_refs_isSome d kv s hbs u hu
    rcases Option.isSome_iff_exists.mp hsome with ⟨p, hp⟩
    rcases lookupKey_mem hp with ⟨kv2, hkv2, hk1, hk2⟩
    rw [from_json_uuids d pl hok]
    exact List.mem_map.mpr ⟨kv2, hkv2, by rw [hkeys kv2 hkv2, hk1]⟩
  · intro pl sel s hs
    rcases List.mem_map.mp hs with ⟨s0, hs0, hfs0⟩
    rw [← hfs0]
  · intro pl sel s hs u hu
    rcases List.mem_map.mp hs with ⟨s0, hs0, hfs0⟩
    rw [← hfs0] at hu
    have hu2 : u ∈ s0.parents.filter (fun p =>
        (uuidsOf (pl.steps.filter (fun s1 => sel.contains s1.properties.uuid))).contains p) := hu
    have := List.mem_filter.mp hu2
    rw [uuidsOf_induced]
    simpa using this.2
  · intro pl sel inclusive s hs
    rcases incoming_steps_shape pl sel inclusive s hs with ⟨st, -, h2, h3⟩
    rw [h2, h3]
  · intro pl sel hclosed s hs u hu
    rcases incoming_steps_shape pl sel true s hs with ⟨st, h1, h2, h3⟩
    have hscl : InClosure pl.steps sel s.properties.uuid ∧
        (lookupStep pl.steps s.properties.uuid).isSome := by
      refine ((incoming_inclusive_mem pl sel).2 _).mp ?_
      exact List.mem_map.mpr ⟨s, hs, rfl⟩
    rw [h2] at hu
    have hucl : InClosure pl.steps sel u := InClosure.up _ u st hscl.1 h1 hu
    have husome : (lookupStep pl.steps u).isSome = true :=
      hclosed st (lookupStep_mem h1) u hu
    exact ((incoming_inclusive_mem pl sel).2 u).mpr ⟨hucl, husome⟩

/-- C3 witness: the amended theorem at the concrete chain pipeline,
instantiated at step `B` of `from_json` and at the copy of `C` inside
`incoming(["C"], inclusive=True)`. -/
theorem c3_witness :
    ({ properties := mkProps "B" ["A"], parents := ["A"], children := ["C"] }
        : PipelineStep).properties.incoming_connections =
      ({ properties := mkProps "B" ["A"], parents := ["A"], children := ["C"] }
        : PipelineStep).parents ∧
    "B" ∈ uuidsOf (chainPl.incoming ["C"] true).steps :=
  ⟨c3_adjacency_after_transforms.1 chainDef chainPl (by decide) (by decide)
     { properties := mkProps "B" ["A"], parents := ["A"], children := ["C"] } (by decide),
   c3_adjacency_after_transforms.2.2.2.2.2 chainPl ["C"] (by decide)
     { properties := mkProps "C" ["B"], parents := ["B"], children := [] }
     (by simp [Pipeline.incoming, incomingLoop_cons, incomingLoop_nil, lookupStep,
       chainPl, mkProps, uuidsOf])
     "B" (by decide)⟩

/-- One `{name, value}` entry of a manifest task's `env` list. -/
structure EnvVar where
  name : String
  value : String
deriving DecidableEq

/-- The `RunConfig` fields read by `_step_to_workflow_manifest_task` (env
values are already strings, so Python's `str(value)` is the identity). -/
structure RunConfig where
  user_env_variables : List (String × String)
  session_uuid : String
  session_type : String
  pipeline_uuid : String
  project_uuid : String
  pipeline_path : String
  env_uuid_to_image : List (String × String)
  run_endpoint : String
deriving DecidableEq

/-- The process-wide configuration constants the env-var block reads
(`_config.PIPELINE_FILE`, `_config.ORCHEST_NAMESPACE`,
`_config.ORCHEST_CLUSTER`). -/
structure OrchestConfig where
  pipeline_file : String
  orchest_namespace : String
  orchest_cluster : String
deriving DecidableEq

/-- `user_env_variables` of `_step_to_workflow_manifest_task`: one entry per
item of `run_config["user_env_variables"]`, in dict order. -/
def user_env_variables (rc : RunConfig) : List EnvVar :=
  rc.user_env_variables.map (fun kv => { name := kv.1, value := kv.2 })

/-- `orchest_env_variables` of `_step_to_workflow_manifest_task`: the fixed
block of eight reserved variables, in source order. -/
def orchest_env_variables (cfg : OrchestConfig) (rc : RunConfig) (step : PipelineStep) :
    List EnvVar :=
  [ { name := "ORCHEST_STEP_UUID", value := step.properties.uuid }
  , { name := "ORCHEST_SESSION_UUID", value := rc.session_uuid }
  , { name := "ORCHEST_SESSION_TYPE", value := rc.session_type }
  , { name := "ORCHEST_PIPELINE_UUID", value := rc.pipeline_uuid }
  , { name := "ORCHEST_PIPELINE_PATH", value := cfg.pipeline_file }
  , { name := "ORCHEST_PROJECT_UUID", value := rc.project_uuid }
  , { name := "ORCHEST_NAMESPACE", value := cfg.orchest_namespace }
  , { name := "ORCHEST_CLUSTER", value := cfg.orchest_cluster } ]

/-- `env_variables = user_env_variables + orchest_env_variables` (the task's
`env` list; the concatenation order is load-bearing, per the source
comment). -/
def step_env_variables (cfg : OrchestConfig) (rc : RunConfig) (step : PipelineStep) :
    List EnvVar :=
  user_env_variables rc ++ orchest_env_variables cfg rc step

/-- Last-write-wins resolution of an env list, the runner-side semantics
(later entries shadow earlier ones of the same name). -/
def resolveEnv (env : List EnvVar) (n : String) : Option String :=
  env.foldl (fun acc e => if e.name == n then some e.value else acc) none

theorem resolveEnv_foldl_irrel (n : String) :
    ∀ (b : List EnvVar), n ∈ b.map EnvVar.name →
      ∀ acc1 acc2 : Option String,
        b.foldl (fun acc e => if e.name == n then some e.value else acc) acc1 =
          b.foldl (fun acc e => if e.name == n then some e.value else acc) acc2 := by
  intro b
  induction b with
  | nil =>
    intro hn
    cases hn
  | cons e b ih =>
    intro hn acc1 acc2
    rw [List.foldl_cons, List.foldl_cons]
    by_cases he : e.name = n
    · rw [if_pos (by simpa using he), if_pos (by simpa using he)]
    · have hn2 : n ∈ b.map EnvVar.name := by
        rcases (by simpa using hn : n = e.name ∨ ∃ a ∈ b, a.name = n) with h | ⟨a, ha, hna⟩
        · exact absurd h.symm he
        · exact List.mem_map.mpr ⟨a, ha, hna⟩
      exact ih hn2 _ _

/-- C8: the env list of every compiled step task is the user variables (one
entry per `user_env_variables` item, in order) followed by exactly the eight
reserved `ORCHEST_*` entries in source order, so every user variable precedes
every reserved variable and, under the runner's last-write-wins semantics,
reserved names shadow user-supplied names. -/
theorem c8_env_order_and_shadowing :
    (∀ (cfg : OrchestConfig) (rc : RunConfig) (step : PipelineStep),
        step_env_variables cfg rc step =
          rc.user_env_variables.map (fun kv => { name := kv.1, value := kv.2 }) ++
            orchest_env_variables cfg rc step) ∧
    (∀ (cfg : OrchestConfig) (rc : RunConfig) (step : PipelineStep),
        (orchest_env_variables cfg rc step).map EnvVar.name =
          ["ORCHEST_STEP_UUID", "ORCHEST_SESSION_UUID", "ORCHEST_SESSION_TYPE",
           "ORCHEST_PIPELINE_UUID", "ORCHEST_PIPELINE_PATH", "ORCHEST_PROJECT_UUID",
           "ORCHEST_NAMESPACE", "ORCHEST_CLUSTER"]) ∧
    (∀ (cfg : OrchestConfig) (rc : RunConfig) (step : PipelineStep) (n : String),
        n ∈ (orchest_env_variables cfg rc step).map EnvVar.name →
          resolveEnv (step_env_variables cfg rc step) n =
            resolveEnv (orchest_env_variables cfg rc step) n) := by
  refine ⟨fun _ _ _ => rfl, fun _ _ _ => rfl, ?_⟩
  intro cfg rc step n hn
  rw [step_env_variables, resolveEnv, resolveEnv, List.foldl_append]
  exact resolveEnv_foldl_irrel n _ hn _ _

/-- C8 witness: order and shadowing at a concrete configuration in which the
user tries to override `ORCHEST_STEP_UUID`. -/
theorem c8_witness :
    "ORCHEST_STEP_UUID" ∈
        (orchest_env_variables ⟨"pf", "ns", "cl"⟩
          { user_env_variables := [("ORCHEST_STEP_UUID", "evil"), ("MY_VAR", "1")]
            session_uuid := "sess", session_type := "interactive", pipeline_uuid := "pl"
            project_uuid := "proj", pipeline_path := "p.orchest", env_uuid_to_image := []
            run_endpoint := "runs" }
          { properties := mkProps "A" [], parents := [], children := [] }).map EnvVar.name ∧
      resolveEnv (step_env_variables ⟨"pf", "ns", "cl"⟩
          { user_env_variables := [("ORCHEST_STEP_UUID", "evil"), ("MY_VAR", "1")]
            session_uuid := "sess", session_type := "interactive", pipeline_uuid := "pl"
            project_uuid := "proj", pipeline_path := "p.orchest", env_uuid_to_image := []
            run_endpoint := "runs" }
          { properties := mkProps "A" [], parents := [], children := [] })
          "ORCHEST_STEP_UUID" =
        resolveEnv (orchest_env_variables ⟨"pf", "ns", "cl"⟩
          { user_env_variables := [("ORCHEST_STEP_UUID", "evil"), ("MY_VAR", "1")]
            session_uuid := "sess", session_type := "interactive", pipeline_uuid := "pl"
            project_uuid := "proj", pipeline_path := "p.orchest", env_uuid_to_image := []
            run_endpoint := "runs" }
          { properties := mkProps "A" [], parents := [], children := [] })
          "ORCHEST_STEP_UUID" :=
  ⟨by decide,
   c8_env_order_and_shadowing.2.2 ⟨"pf", "ns", "cl"⟩
     { user_env_variables := [("ORCHEST_STEP_UUID", "evil"), ("MY_VAR", "1")]
       session_uuid := "sess", session_type := "interactive", pipeline_uuid := "pl"
       project_uuid := "proj", pipeline_path := "p.orchest", env_uuid_to_image := []
       run_endpoint := "runs" }
     { properties := mkProps "A" [], parents := [], children := [] }
     "ORCHEST_STEP_UUID" (by decide)⟩

/-- Step/pipeline run statuses sent to the tracker. -/
inductive RunStatus where
  | PENDING
  | STARTED
  | SUCCESS
  | FAILURE
  | ABORTED
deriving DecidableEq

/-- One tracker call (`update_status`): a per-step status or the pipeline
status. -/
inductive Upd where
  | step (uuid : String) (status : RunStatus)
  | pipeline (status : RunStatus)
deriving DecidableEq

/-- Does the character list start with `pat`? -/
def charListStartsWith : List Char → List Char → Bool
  | [], _ => true
  | _ :: _, [] => false
  | p :: ps, c :: cs => c == p && charListStartsWith ps cs

/-- Python's substring test `pat in s` on character lists. -/
def charListHasSub (pat : List Char) : List Char → Bool
  | [] => pat.isEmpty
  | c :: cs => charListStartsWith pat (c :: cs) || charListHasSub pat cs

/-- Python's `pat in s` on strings. -/
def strHasSub (s pat : String) : Bool := charListHasSub pat.data s.data

/-- Helper for `pyReplaceEmpty`: while `skip > 0` the character belongs to an
already-matched occurrence and is dropped. -/
def removeAllAux (pat : List Char) : List Char → Nat → List Char
  | [], _ => []
  | _ :: cs, skip + 1 => removeAllAux pat cs skip
  | c :: cs, 0 =>
    if pat ≠ [] && charListStartsWith pat (c :: cs) then
      removeAllAux pat cs (pat.length - 1)
    else
      c :: removeAllAux pat cs 0

/-- Python's `s.replace(pat, "")` for non-empty `pat`: removes every
non-overlapping occurrence, scanning left to right. -/
def pyReplaceEmpty (s pat : String) : String := ⟨removeAllAux pat.data s.data 0⟩

/-- One entry of the engine's `status.nodes`, with `none` marking an absent
key (`templateName` and `phase` are indexed directly in the source, so their
absence raises `KeyError`; `type`/`message`/`displayName` use `.get`). -/
structure ArgoNode where
  type : String
  templateName : Option String
  displayName : Option String
  params : Option (List (String × String))
  phase : Option String
  message : String
deriving DecidableEq

/-- The step-uuid extraction of one poll-loop node inspection: `.ok none`
models `continue`, `.error ()` a raised exception. -/
def nodeStepUuid (single_node : Bool) (n : ArgoNode) : Except Unit (Option String) :=
  if single_node then
    if n.type != "Container" then .ok none
    else
      match n.displayName with
      | none => .error ()
      | some dn => .ok (some (pyReplaceEmpty dn "step-"))
  else
    match n.templateName with
    | none => .error ()
    | some tn =>
      if tn != "step" then .ok none
      else
        match n.params with
        | none => .ok none
        | some ps =>
          if n.type != "Pod" then .ok none
          else
            match ps.find? (fun p => p.1 == "step_uuid") with
            | some p => .ok (some p.2)
            | none => .error ()

/-- Mutable state of `run_pipeline_workflow` plus the observable tracker
trace; `trFails` scripts the outcomes of the upcoming tracker PUTs (`true`
means the HTTP call raises; an exhausted list means success). -/
structure LoopSt where
  steps_to_start : List String
  steps_to_finish : List String
  had_failed_steps : Bool
  trace : List Upd
  trFails : List Bool
deriving DecidableEq

/-- `update_status`: one tracker PUT; on failure nothing is recorded and the
exception flag is returned. -/
def putStatus (u : Upd) (st : LoopSt) : LoopSt × Bool :=
  match st.trFails with
  | [] => ({ st with trace := st.trace ++ [u] }, false)
  | b :: rest =>
    if b then ({ st with trFails := rest }, true)
    else ({ st with trFails := rest, trace := st.trace ++ [u] }, false)

/-- `_is_step_allowed_to_run`: have all parents finished? -/
def is_step_allowed_to_run (step : PipelineStep) (steps_to_finish : List String) : Bool :=
  step.parents.all (fun p => !steps_to_finish.contains p)

/-- The branch the per-node ladder of the poll loop takes, separated from the
state mutation.  `pullBackoffMissing` is the image-pull branch reaching a
step no longer in `steps_to_finish`: the source sets `had_failed_steps` and
then `steps_to_finish.remove` raises `KeyError`.  The image-pull branch with
the step still pending coincides with a terminal `FAILURE` update. -/
inductive StepDecision where
  | skip
  | exc
  | pullBackoffMissing (u : String)
  | started (u : String)
  | terminal (u : String) (t : RunStatus)
deriving DecidableEq

/-- The branch ladder of one node inspection (the conditions of the source,
in source order). -/
def nodeDecision (single_node : Bool) (pl : Pipeline) (st : LoopSt) (n : ArgoNode) :
    StepDecision :=
  match nodeStepUuid single_node n with
  | .error _ => .exc
  | .ok none => .skip
  | .ok (some step_uuid) =>
    match pl.get_step step_uuid with
    | none => .exc
    | some pipeline_step =>
      match n.phase with
      | none => .exc
      | some phase =>
        if (phase == "Pending" || phase == "Running") &&
            (strHasSub n.message "ImagePullBackOff" || strHasSub n.message "ErrImagePull") then
          if step_uuid ∈ st.steps_to_finish then .terminal step_uuid .FAILURE
          else .pullBackoffMissing step_uuid
        else if phase == "Running" && st.steps_to_start.contains step_uuid &&
            is_step_allowed_to_run pipeline_step st.steps_to_finish then
          .started step_uuid
        else if (phase == "Succeeded" || phase == "Failed" || phase == "Error") &&
            st.steps_to_finish.contains step_uuid then
          .terminal step_uuid (if phase == "Succeeded" then .SUCCESS else .FAILURE)
        else .skip

/-- The state mutation and tracker PUT of one node inspection, given the
branch taken: `had_failed_steps` is updated, terminal updates remove the step
from both sets and `STARTED` from `steps_to_start` only, and then the PUT is
issued. -/
def applyDecision (st : LoopSt) : StepDecision → LoopSt × Bool
  | .skip => (st, false)
  | .exc => (st, true)
  | .pullBackoffMissing _ => ({ st with had_failed_steps := true }, true)
  | .started u =>
    putStatus (.step u .STARTED) { st with steps_to_start := st.steps_to_start.erase u }
  | .terminal u t =>
    putStatus (.step u t)
      { st with
          had_failed_steps := st.had_failed_steps || (t == .FAILURE)
          steps_to_finish := st.steps_to_finish.erase u
          steps_to_start :=
            if u ∈ st.steps_to_start then st.steps_to_start.erase u else st.steps_to_start }

/-- One node inspection of the poll loop: the updated state and whether an
exception was raised. -/
def processNode (single_node : Bool) (pl : Pipeline) (n : ArgoNode) (st : LoopSt) :
    LoopSt × Bool :=
  applyDecision st (nodeDecision single_node pl st n)

/-- The per-iteration pass over `status.nodes`; an exception aborts the
pass. -/
def processNodes (single_node : Bool) (pl : Pipeline) :
    List ArgoNode → LoopSt → LoopSt × Bool
  | [], st => (st, false)
  | n :: ns, st =>
    match processNode single_node pl n st with
    | (st2, true) => (st2, true)
    | (st2, false) => processNodes single_node pl ns st2

/-- One poll iteration as the loop observes it: the engine's `status.nodes`
values, the cancellation probe, and the tracker GET result (`none` models a
response without a "status" key, which the source defaults to `"ABORTED"`). -/
structure PollIter where
  nodes : List ArgoNode
  aborted : Bool
  runStatus : Option String
deriving DecidableEq

/-- How the poll loop ended. -/
inductive LoopExit where
  | broke
  | excepted
  | scriptEnd
deriving DecidableEq

/-- The poll loop (`while steps_to_finish:`), driven by the finite script of
engine observations; `scriptEnd` marks the run still in progress when the
script is exhausted (the trace so far is a faithful prefix). -/
def runIters (single_node : Bool) (pl : Pipeline) :
    List PollIter → LoopSt → LoopSt × LoopExit
  | [], st =>
    if st.steps_to_finish.isEmpty then (st, .broke) else (st, .scriptEnd)
  | it :: rest, st =>
    if st.steps_to_finish.isEmpty then (st, .broke)
    else
      match processNodes single_node pl it.nodes st with
      | (st2, true) => (st2, .excepted)
      | (st2, false) =>
        if st2.steps_to_finish.isEmpty || st2.had_failed_steps then (st2, .broke)
        else if it.aborted then (st2, .broke)
        else if (it.runStatus.getD "ABORTED") ∈ (["SUCCESS", "FAILURE", "ABORTED"] : List String)
          then (st2, .broke)
        else runIters single_node pl rest st2

/-- The `ABORTED` flush over the (unmutated) `steps_to_finish` set. -/
def emitAborted : List String → LoopSt → LoopSt × Bool
  | [], st => (st, false)
  | u :: us, st =>
    match putStatus (.step u .ABORTED) st with
    | (st2, true) => (st2, true)
    | (st2, false) => emitAborted us st2

/-- Success-path finalization: flush `ABORTED` for every unfinished step,
then emit the final pipeline status. -/
def finalizeTry (st : LoopSt) : LoopSt × Bool :=
  match emitAborted st.steps_to_finish st with
  | (st2, true) => (st2, true)
  | (st2, false) =>
    putStatus (.pipeline (if st2.had_failed_steps then .FAILURE else .SUCCESS)) st2

/-- The `except Exception` handler: flush `ABORTED`, then emit pipeline
`FAILURE`; a tracker failure here propagates out. -/
def exceptPath (st : LoopSt) : LoopSt × Bool :=
  match emitAborted st.steps_to_finish st with
  | (st2, true) => (st2, true)
  | (st2, false) => putStatus (.pipeline .FAILURE) st2

/-- Result of a run: final state (with the full tracker trace), whether an
exception escaped the coroutine, and how the poll loop exited (`none` when it
was never entered because the initial PUT or the submission failed). -/
structure RunResult where
  final : LoopSt
  escaped : Bool
  exit : Option LoopExit
deriving DecidableEq

/-- The loop state just after `steps_to_start`/`steps_to_finish` are
initialized (Python set semantics: duplicate-free). -/
def initialLoopSt (pl : Pipeline) (trFails : List Bool) : LoopSt :=
  { steps_to_start := (uuidsOf pl.steps).dedup
    steps_to_finish := (uuidsOf pl.steps).dedup
    had_failed_steps := false
    trace := []
    trFails := trFails }

/-- The state after the initial pipeline `STARTED` PUT succeeded (the
reference state for the loop lemmas, with all tracker PUTs succeeding). -/
def afterStart (pl : Pipeline) : LoopSt :=
  { initialLoopSt pl [] with
      trace := (initialLoopSt pl []).trace ++ [Upd.pipeline RunStatus.STARTED] }

/-- Everything from the poll loop on: the loop itself, the success-path
finalization, and the catch-all handler (a failing PUT inside the try-block
finalization falls through to the handler; one failing inside the handler
escapes). -/
def runFromLoop (single_node : Bool) (pl : Pipeline) (iters : List PollIter)
    (st1 : LoopSt) : RunResult :=
  match runIters single_node pl iters st1 with
  | (st2, .excepted) =>
    match exceptPath st2 with
    | (st3, esc) => { final := st3, escaped := esc, exit := some .excepted }
  | (st2, .scriptEnd) => { final := st2, escaped := false, exit := some .scriptEnd }
  | (st2, .broke) =>
    match finalizeTry st2 with
    | (st3, true) =>
      match exceptPath st3 with
      | (st4, esc) => { final := st4, escaped := esc, exit := some .broke }
    | (st3, false) => { final := st3, escaped := false, exit := some .broke }

/-- `run_pipeline_workflow`: the initial pipeline `STARTED` PUT (outside the
try block, so its exception escapes), manifest compilation + engine
submission (collapsed into the fallible `submitOk` flag), then the poll loop
with finalization and catch-all handler. -/
def run_pipeline_workflow (single_node : Bool) (pl : Pipeline) (submitOk : Bool)
    (iters : List PollIter) (trFails : List Bool) : RunResult :=
  match putStatus (.pipeline .STARTED) (initialLoopSt pl trFails) with
  | (st1, true) => { final := st1, escaped := true, exit := none }
  | (st1, false) =>
    if submitOk then runFromLoop single_node pl iters st1
    else
      match exceptPath st1 with
      | (st2, esc) => { final := st2, escaped := esc, exit := none }


/-- The statuses emitted for one step, in emission order. -/
def stepTrace (tr : List Upd) (u : String) : List RunStatus :=
  tr.filterMap (fun upd =>
    match upd with
    | .step v s => if v = u then some s else none
    | .pipeline _ => none)

theorem stepTrace_append (a b : List Upd) (u : String) :
    stepTrace (a ++ b) u = stepTrace a u ++ stepTrace b u := by
  rw [stepTrace, stepTrace, stepTrace, List.filterMap_append]

theorem stepTrace_step_singleton (v : String) (s : RunStatus) (u : String) :
    stepTrace [Upd.step v s] u = if v = u then [s] else [] := by
  by_cases hvu : v = u
  · simp [stepTrace, hvu]
  · simp [stepTrace, hvu]

theorem stepTrace_pipeline_singleton (s : RunStatus) (u : String) :
    stepTrace [Upd.pipeline s] u = [] := by
  simp [stepTrace]

/-- A terminal step status. -/
def TerminalStatus (t : RunStatus) : Prop :=
  t = RunStatus.SUCCESS ∨ t = RunStatus.FAILURE ∨ t = RunStatus.ABORTED

/-- The admissible per-step emission sequences: at most one `STARTED`,
followed by at most one terminal status (which may also occur on its own). -/
def okShape (l : List RunStatus) : Prop :=
  l = [] ∨ l = [RunStatus.STARTED] ∨
    ∃ t, TerminalStatus t ∧ (l = [t] ∨ l = [RunStatus.STARTED, t])

/-- Invariant tying the set bookkeeping of the poll loop to the per-step
emissions (stated for runs in which every tracker PUT succeeds, i.e.
`trFails = []`). -/
def TraceInv (st : LoopSt) : Prop :=
  st.trFails = [] ∧
  st.steps_to_start.Nodup ∧
  st.steps_to_finish.Nodup ∧
  (∀ u ∈ st.steps_to_start, u ∈ st.steps_to_finish) ∧
  ∀ u,
    (u ∈ st.steps_to_start → stepTrace st.trace u = []) ∧
    (u ∉ st.steps_to_start → u ∈ st.steps_to_finish →
      (stepTrace st.trace u = [] ∨ stepTrace st.trace u = [RunStatus.STARTED])) ∧
    (u ∉ st.steps_to_finish →
      (stepTrace st.trace u = [] ∨
        ∃ t, TerminalStatus t ∧
          (stepTrace st.trace u = [t] ∨ stepTrace st.trace u = [RunStatus.STARTED, t])))

theorem putStatus_noFail (u : Upd) (st : LoopSt) (h : st.trFails = []) :
    putStatus u st = ({ st with trace := st.trace ++ [u] }, false) := by
  rw [putStatus, h]

theorem traceInv_emit_started (st : LoopSt) (u : String)
    (hmem : u ∈ st.steps_to_start) (hinv : TraceInv st) :
    TraceInv { st with
        steps_to_start := st.steps_to_start.erase u
        trace := st.trace ++ [Upd.step u RunStatus.STARTED] } := by
  obtain ⟨htf, hnds, hndf, hsub, hper⟩ := hinv
  refine ⟨htf, hnds.erase u, hndf, ?_, ?_⟩
  · intro v hv
    exact hsub v (List.mem_of_mem_erase hv)
  · intro v
    have htr : stepTrace (st.trace ++ [Upd.step u RunStatus.STARTED]) v =
        stepTrace st.trace v ++ (if u = v then [RunStatus.STARTED] else []) := by
      rw [stepTrace_append, stepTrace_step_singleton]
    by_cases hvu : v = u
    · subst hvu
      rw [htr, if_pos rfl]
      refine ⟨?_, ?_, ?_⟩
      · intro hv
        exact absurd ((hnds.mem_erase_iff).mp hv).1 (fun hc => hc rfl)
      · intro _ _
        rcases (hper v).1 hmem with h
        rw [h]
        exact Or.inr rfl
      · intro hv
        exact absurd (hsub v hmem) hv
    · rw [htr, if_neg (fun hc : u = v => hvu hc.symm), List.append_nil]
      have hvstart : v ∈ st.steps_to_start.erase u ↔ v ∈ st.steps_to_start := by
        rw [hnds.mem_erase_iff]
        exact ⟨fun h => h.2, fun h => ⟨hvu, h⟩⟩
      refine ⟨?_, ?_, ?_⟩
      · intro hv
        exact (hper v).1 (hvstart.mp hv)
      · intro hv hv2
        exact (hper v).2.1 (fun hc => hv (hvstart.mpr hc)) hv2
      · intro hv
        exact (hper v).2.2 hv

theorem traceInv_emit_terminal (st : LoopSt) (u : String) (t : RunStatus) (b : Bool)
    (hterm : TerminalStatus t) (hmem : u ∈ st.steps_to_finish) (hinv : TraceInv st) :
    TraceInv { st with
        had_failed_steps := b
        steps_to_finish := st.steps_to_finish.erase u
        steps_to_start :=
          if u ∈ st.steps_to_start then st.steps_to_start.erase u else st.steps_to_start
        trace := st.trace ++ [Upd.step u t] } := by
  obtain ⟨htf, hnds, hndf, hsub, hper⟩ := hinv
  have hndse : (if u ∈ st.steps_to_start then st.steps_to_start.erase u
      else st.steps_to_start).Nodup := by
    by_cases hus : u ∈ st.steps_to_start
    · rw [if_pos hus]
      exact hnds.erase u
    · rw [if_neg hus]
      exact hnds
  have hstart_iff : ∀ v, v ≠ u →
      (v ∈ (if u ∈ st.steps_to_start then st.steps_to_start.erase u
        else st.steps_to_start) ↔ v ∈ st.steps_to_start) := by
    intro v hvu
    by_cases hus : u ∈ st.steps_to_start
    · rw [if_pos hus, hnds.mem_erase_iff]
      exact ⟨fun h => h.2, fun h => ⟨hvu, h⟩⟩
    · rw [if_neg hus]
  have hstart_not : u ∉ (if u ∈ st.steps_to_start then st.steps_to_start.erase u
      else st.steps_to_start) := by
    by_cases hus : u ∈ st.steps_to_start
    · rw [if_pos hus, hnds.mem_erase_iff]
      exact fun hc => hc.1 rfl
    · rw [if_neg hus]
      exact hus
  refine ⟨htf, hndse, hndf.erase u, ?_, ?_⟩
  · intro v hv
    by_cases hvu : v = u
    · subst hvu
      exact absurd hv hstart_not
    · rw [hndf.mem_erase_iff]
      refine ⟨hvu, hsub v ((hstart_iff v hvu).mp hv)⟩
  · intro v
    have htr : stepTrace (st.trace ++ [Upd.step u t]) v =
        stepTrace st.trace v ++ (if u = v then [t] else []) := by
      rw [stepTrace_append, stepTrace_step_singleton]
    by_cases hvu : v = u
    · subst hvu
      rw [htr, if_pos rfl]
      refine ⟨?_, ?_, ?_⟩
      · intro hv
        exact absurd hv hstart_not
      · intro _ hv2
        exact absurd ((hndf.mem_erase_iff).mp hv2).1 (fun hc => hc rfl)
      · intro _
        by_cases hus : v ∈ st.steps_to_start
        · rw [(hper v).1 hus]
          exact Or.inr ⟨t, hterm, Or.inl rfl⟩
        · rcases (hper v).2.1 hus hmem with h | h
          · rw [h]
            exact Or.inr ⟨t, hterm, Or.inl rfl⟩
          · rw [h]
            exact Or.inr ⟨t, hterm, Or.inr rfl⟩
    · rw [htr, if_neg (fun hc : u = v => hvu hc.symm), List.append_nil]
      have hfin_iff : v ∈ st.steps_to_finish.erase u ↔ v ∈ st.steps_to_finish := by
        rw [hndf.mem_erase_iff]
        exact ⟨fun h => h.2, fun h => ⟨hvu, h⟩⟩
      refine ⟨?_, ?_, ?_⟩
      · intro hv
        exact (hper v).1 ((hstart_iff v hvu).mp hv)
      · intro hv hv2
        exact (hper v).2.1 (fun hc => hv ((hstart_iff v hvu).mpr hc)) (hfin_iff.mp hv2)
      · intro hv
        exact (hper v).2.2 (fun hc => hv (hfin_iff.mpr hc))

theorem processNodes_nil (sn : Bool) (pl : Pipeline) (st : LoopSt) :
    processNodes sn pl [] st = (st, false) := rfl

theorem processNodes_cons_exc (sn : Bool) (pl : Pipeline) (n : ArgoNode)
    (ns : List ArgoNode) (st st2 : LoopSt)
    (hp : processNode sn pl n st = (st2, true)) :
    processNodes sn pl (n :: ns) st = (st2, true) := by
  rw [processNodes, hp]

theorem processNodes_cons_ok (sn : Bool) (pl : Pipeline) (n : ArgoNode)
    (ns : List ArgoNode) (st st2 : LoopSt)
    (hp : processNode sn pl n st = (st2, false)) :
    processNodes sn pl (n :: ns) st = processNodes sn pl ns st2 := by
  rw [processNodes, hp]

theorem runIters_stop (sn : Bool) (pl : Pipeline) (its : List PollIter) (st : LoopSt)
    (he : st.steps_to_finish.isEmpty = true) :
    runIters sn pl its st = (st, .broke) := by
  cases its with
  | nil => rw [runIters, if_pos he]
  | cons it rest => rw [runIters, if_pos he]

theorem runIters_nil_scriptEnd (sn : Bool) (pl : Pipeline) (st : LoopSt)
    (he : st.steps_to_finish.isEmpty = false) :
    runIters sn pl [] st = (st, .scriptEnd) := by
  rw [runIters, if_neg (by simp [he])]

theorem runIters_cons_excepted (sn : Bool) (pl : Pipeline) (it : PollIter)
    (rest : List PollIter) (st st2 : LoopSt)
    (he : st.steps_to_finish.isEmpty = false)
    (hp : processNodes sn pl it.nodes st = (st2, true)) :
    runIters sn pl (it :: rest) st = (st2, .excepted) := by
  rw [runIters, if_neg (by simp [he]), hp]

theorem runIters_cons_continue (sn : Bool) (pl : Pipeline) (it : PollIter)
    (rest : List PollIter) (st st2 : LoopSt)
    (he : st.steps_to_finish.isEmpty = false)
    (hp : processNodes sn pl it.nodes st = (st2, false)) :
    runIters sn pl (it :: rest) st =
      (if st2.steps_to_finish.isEmpty || st2.had_failed_steps then (st2, .broke)
       else if it.aborted then (st2, .broke)
       else if (it.runStatus.getD "ABORTED") ∈ (["SUCCESS", "FAILURE", "ABORTED"] : List String)
         then (st2, .broke)
       else runIters sn pl rest st2) := by
  rw [runIters, if_neg (by simp [he]), hp]

theorem emitAborted_noFail : ∀ (l : List String) (st : LoopSt), st.trFails = [] →
    emitAborted l st =
      ({ st with trace := st.trace ++ l.map (fun v => Upd.step v RunStatus.ABORTED) }, false) := by
  intro l
  induction l with
  | nil =>
    intro st h
    rw [emitAborted]
    simp
  | cons u us ih =>
    intro st h
    rw [emitAborted, putStatus_noFail _ _ h]
    dsimp only
    rw [ih { st with trace := st.trace ++ [Upd.step u RunStatus.ABORTED] } h]
    simp

theorem finalizeTry_noFail (st : LoopSt) (h : st.trFails = []) :
    finalizeTry st =
      ({ st with trace := st.trace ++
          st.steps_to_finish.map (fun v => Upd.step v RunStatus.ABORTED) ++
          [Upd.pipeline (if st.had_failed_steps then RunStatus.FAILURE else RunStatus.SUCCESS)] },
       false) := by
  rw [finalizeTry, emitAborted_noFail _ _ h]
  dsimp only
  rw [putStatus_noFail _
    { st with trace := st.trace ++
        st.steps_to_finish.map (fun v => Upd.step v RunStatus.ABORTED) } h]

theorem exceptPath_noFail (st : LoopSt) (h : st.trFails = []) :
    exceptPath st =
      ({ st with trace := st.trace ++
          st.steps_to_finish.map (fun v => Upd.step v RunStatus.ABORTED) ++
          [Upd.pipeline RunStatus.FAILURE] }, false) := by
  rw [exceptPath, emitAborted_noFail _ _ h]
  dsimp only
  rw [putStatus_noFail _
    { st with trace := st.trace ++
        st.steps_to_finish.map (fun v => Upd.step v RunStatus.ABORTED) } h]

theorem run_noFail_eq (sn : Bool) (pl : Pipeline) (submitOk : Bool) (iters : List PollIter) :
    run_pipeline_workflow sn pl submitOk iters [] =
      (if submitOk then runFromLoop sn pl iters (afterStart pl)
       else
         match exceptPath (afterStart pl) with
         | (st2, esc) => { final := st2, escaped := esc, exit := none }) := by
  rw [run_pipeline_workflow, putStatus_noFail _ _ rfl]
  rfl

theorem nodeDecision_started_mem (sn : Bool) (pl : Pipeline) (st : LoopSt) (n : ArgoNode)
    (u : String) (h : nodeDecision sn pl st n = .started u) : u ∈ st.steps_to_start := by
  rw [nodeDecision] at h
  cases hns : nodeStepUuid sn n with
  | error e =>
    rw [hns] at h
    exact StepDecision.noConfusion h
  | ok ou =>
    rw [hns] at h
    cases ou with
    | none => exact StepDecision.noConfusion h
    | some su =>
      dsimp only at h
      cases hgs : pl.get_step su with
      | none =>
        rw [hgs] at h
        exact StepDecision.noConfusion h
      | some ps =>
        rw [hgs] at h
        dsimp only at h
        cases hph : n.phase with
        | none =>
          rw [hph] at h
          exact StepDecision.noConfusion h
        | some phase =>
          rw [hph] at h
          dsimp only at h
          by_cases h1 : ((phase == "Pending" || phase == "Running") &&
              (strHasSub n.message "ImagePullBackOff" ||
                strHasSub n.message "ErrImagePull")) = true
          · rw [if_pos h1] at h
            by_cases h2 : su ∈ st.steps_to_finish
            · rw [if_pos h2] at h
              exact StepDecision.noConfusion h
            · rw [if_neg h2] at h
              exact StepDecision.noConfusion h
          · rw [if_neg h1] at h
            by_cases h2 : (phase == "Running" && st.steps_to_start.contains su &&
                is_step_allowed_to_run ps st.steps_to_finish) = true
            · rw [if_pos h2] at h
              cases h
              simp only [Bool.and_eq_true] at h2
              simpa using h2.1.2
            · rw [if_neg h2] at h
              by_cases h3 : ((phase == "Succeeded" || phase == "Failed" || phase == "Error") &&
                  st.steps_to_finish.contains su) = true
              · rw [if_pos h3] at h
                exact StepDecision.noConfusion h
              · rw [if_neg h3] at h
                exact StepDecision.noConfusion h

theorem nodeDecision_terminal_mem (sn : Bool) (pl : Pipeline) (st : LoopSt) (n : ArgoNode)
    (u : String) (t : RunStatus) (h : nodeDecision sn pl st n = .terminal u t) :
    u ∈ st.steps_to_finish ∧ TerminalStatus t := by
  rw [nodeDecision] at h
  cases hns : nodeStepUuid sn n with
  | error e =>
    rw [hns] at h
    exact StepDecision.noConfusion h
  | ok ou =>
    rw [hns] at h
    cases ou with
    | none => exact StepDecision.noConfusion h
    | some su =>
      dsimp only at h
      cases hgs : pl.get_step su with
      | none =>
        rw [hgs] at h
        exact StepDecision.noConfusion h
      | some ps =>
        rw [hgs] at h
        dsimp only at h
        cases hph : n.phase with
        | none =>
          rw [hph] at h
          exact StepDecision.noConfusion h
        | some phase =>
          rw [hph] at h
          dsimp only at h
          by_cases h1 : ((phase == "Pending" || phase == "Running") &&
              (strHasSub n.message "ImagePullBackOff" ||
                strHasSub n.message "ErrImagePull")) = true
          · rw [if_pos h1] at h
            by_cases h2 : su ∈ st.steps_to_finish
            · rw [if_pos h2] at h
              cases h
              exact ⟨h2, Or.inr (Or.inl rfl)⟩
            · rw [if_neg h2] at h
              exact StepDecision.noConfusion h
          · rw [if_neg h1] at h
            by_cases h2 : (phase == "Running" && st.steps_to_start.contains su &&
                is_step_allowed_to_run ps st.steps_to_finish) = true
            · rw [if_pos h2] at h
              exact StepDecision.noConfusion h
            · rw [if_neg h2] at h
              by_cases h3 : ((phase == "Succeeded" || phase == "Failed" || phase == "Error") &&
                  st.steps_to_finish.contains su) = true
              · rw [if_pos h3] at h
                cases h
                simp only [Bool.and_eq_true] at h3
                refine ⟨by simpa using h3.2, ?_⟩
                by_cases h4 : (phase == "Succeeded") = true
                · rw [if_pos h4]
                  exact Or.inl rfl
                · rw [if_neg h4]
                  exact Or.inr (Or.inl rfl)
              · rw [if_neg h3] at h
                exact StepDecision.noConfusion h

theorem processNode_traceInv (sn : Bool) (pl : Pipeline) (n : ArgoNode) (st : LoopSt)
    (hinv : TraceInv st) : TraceInv (processNode sn pl n st).1 := by
  rw [processNode]
  cases hd : nodeDecision sn pl st n with
  | skip => exact hinv
  | exc => exact hinv
  | pullBackoffMissing u =>
    obtain ⟨htf, h2, h3, h4, h5⟩ := hinv
    exact ⟨htf, h2, h3, h4, h5⟩
  | started u =>
    rw [applyDecision, putStatus_noFail _
      { st with steps_to_start := st.steps_to_start.erase u } hinv.1]
    exact traceInv_emit_started st u (nodeDecision_started_mem sn pl st n u hd) hinv
  | terminal u t =>
    obtain ⟨hmem, hterm⟩ := nodeDecision_terminal_mem sn pl st n u t hd
    rw [applyDecision, putStatus_noFail _
      { st with
          had_failed_steps := st.had_failed_steps || (t == .FAILURE)
          steps_to_finish := st.steps_to_finish.erase u
          steps_to_start :=
            if u ∈ st.steps_to_start then st.steps_to_start.erase u
            else st.steps_to_start } hinv.1]
    exact traceInv_emit_terminal st u t _ hterm hmem hinv

theorem processNodes_traceInv (sn : Bool) (pl : Pipeline) :
    ∀ (ns : List ArgoNode) (st : LoopSt), TraceInv st →
      TraceInv (processNodes sn pl ns st).1 := by
  intro ns
  induction ns with
  | nil =>
    intro st h
    rw [processNodes_nil]
    exact h
  | cons n ns ih =>
    intro st h
    have hpn := processNode_traceInv sn pl n st h
    cases hp : processNode sn pl n st with
    | mk st2 exc =>
      rw [hp] at hpn
      cases exc with
      | true =>
        rw [processNodes_cons_exc sn pl n ns st st2 hp]
        exact hpn
      | false =>
        rw [processNodes_cons_ok sn pl n ns st st2 hp]
        exact ih st2 hpn

theorem runIters_traceInv (sn : Bool) (pl : Pipeline) :
    ∀ (its : List PollIter) (st : LoopSt), TraceInv st →
      TraceInv (runIters sn pl its st).1 := by
  intro its
  induction its with
  | nil =>
    intro st h
    by_cases he : st.steps_to_finish.isEmpty = true
    · rw [runIters_stop sn pl [] st he]
      exact h
    · rw [runIters_nil_scriptEnd sn pl st (Bool.eq_false_iff.mpr he)]
      exact h
  | cons it rest ih =>
    intro st h
    by_cases he : st.steps_to_finish.isEmpty = true
    · rw [runIters_stop sn pl (it :: rest) st he]
      exact h
    · have hpn := processNodes_traceInv sn pl it.nodes st h
      cases hp : processNodes sn pl it.nodes st with
      | mk st2 exc =>
        rw [hp] at hpn
        cases exc with
        | true =>
          rw [runIters_cons_excepted sn pl it rest st st2 (Bool.eq_false_iff.mpr he) hp]
          exact hpn
        | false =>
          rw [runIters_cons_continue sn pl it rest st st2 (Bool.eq_false_iff.mpr he) hp]
          by_cases c1 : (st2.steps_to_finish.isEmpty || st2.had_failed_steps) = true
          · rw [if_pos c1]
            exact hpn
          · rw [if_neg c1]
            by_cases c2 : it.aborted = true
            · rw [if_pos c2]
              exact hpn
            · rw [if_neg c2]
              by_cases c3 : (it.runStatus.getD "ABORTED") ∈
                  (["SUCCESS", "FAILURE", "ABORTED"] : List String)
              · rw [if_pos c3]
                exact hpn
              · rw [if_neg c3]
                exact ih st2 hpn

theorem stepTrace_fillers (u : String) : ∀ (l : List String), l.Nodup →
    stepTrace (l.map (fun v => Upd.step v RunStatus.ABORTED)) u =
      (if u ∈ l then [RunStatus.ABORTED] else []) := by
  intro l
  induction l with
  | nil =>
    intro _
    simp [stepTrace]
  | cons a t ih =>
    intro hnd
    have hsplit : (a :: t).map (fun v => Upd.step v RunStatus.ABORTED) =
        [Upd.step a RunStatus.ABORTED] ++ t.map (fun v => Upd.step v RunStatus.ABORTED) := rfl
    rw [hsplit, stepTrace_append, stepTrace_step_singleton, ih (List.Nodup.of_cons hnd)]
    by_cases hau : a = u
    · subst hau
      rw [if_pos rfl, if_pos (List.mem_cons_self a t), if_neg (List.nodup_cons.mp hnd).1]
      rfl
    · rw [if_neg hau]
      by_cases hut : u ∈ t
      · rw [if_pos hut, if_pos (List.mem_cons_of_mem a hut)]
        rfl
      · rw [if_neg hut,
          if_neg (fun hc => (List.mem_cons.mp hc).elim (fun h => hau h.symm) hut)]
        rfl

/-- Any state satisfying the invariant has per-step emissions of an
admissible shape. -/
theorem okShape_of_traceInv (st : LoopSt) (hinv : TraceInv st) (u : String) :
    okShape (stepTrace st.trace u) := by
  obtain ⟨htf, hnds, hndf, hsub, hper⟩ := hinv
  by_cases hu : u ∈ st.steps_to_finish
  · by_cases hus : u ∈ st.steps_to_start
    · rw [(hper u).1 hus]
      exact Or.inl rfl
    · rcases (hper u).2.1 hus hu with h | h
      · rw [h]
        exact Or.inl rfl
      · rw [h]
        exact Or.inr (Or.inl rfl)
  · rcases (hper u).2.2 hu with h | ⟨t, ht, h | h⟩
    · rw [h]
      exact Or.inl rfl
    · rw [h]
      exact Or.inr (Or.inr ⟨t, ht, Or.inl rfl⟩)
    · rw [h]
      exact Or.inr (Or.inr ⟨t, ht, Or.inr rfl⟩)

/-- The `ABORTED` fillers plus the final pipeline status keep the per-step
emissions admissible. -/
theorem okShape_of_traceInv_final (st : LoopSt) (hinv : TraceInv st)
    (p : RunStatus) (u : String) :
    okShape (stepTrace (st.trace ++
      st.steps_to_finish.map (fun v => Upd.step v RunStatus.ABORTED) ++
      [Upd.pipeline p]) u) := by
  obtain ⟨htf, hnds, hndf, hsub, hper⟩ := hinv
  rw [stepTrace_append, stepTrace_append, stepTrace_pipeline_singleton, List.append_nil,
    stepTrace_fillers u _ hndf]
  by_cases hu : u ∈ st.steps_to_finish
  · rw [if_pos hu]
    by_cases hus : u ∈ st.steps_to_start
    · rw [(hper u).1 hus]
      exact Or.inr (Or.inr ⟨RunStatus.ABORTED, Or.inr (Or.inr rfl), Or.inl rfl⟩)
    · rcases (hper u).2.1 hus hu with h | h
      · rw [h]
        exact Or.inr (Or.inr ⟨RunStatus.ABORTED, Or.inr (Or.inr rfl), Or.inl rfl⟩)
      · rw [h]
        exact Or.inr (Or.inr ⟨RunStatus.ABORTED, Or.inr (Or.inr rfl), Or.inr rfl⟩)
  · rw [if_neg hu, List.append_nil]
    by_cases hus : u ∈ st.steps_to_start
    · rw [(hper u).1 hus]
      exact Or.inl rfl
    · rcases (hper u).2.2 hu with h | ⟨t, ht, h | h⟩
      · rw [h]
        exact Or.inl rfl
      · rw [h]
        exact Or.inr (Or.inr ⟨t, ht, Or.inl rfl⟩)
      · rw [h]
        exact Or.inr (Or.inr ⟨t, ht, Or.inr rfl⟩)

theorem traceInv_afterStart (pl : Pipeline) : TraceInv (afterStart pl) := by
  refine ⟨rfl, List.nodup_dedup _, List.nodup_dedup _, fun u hu => hu, ?_⟩
  intro u
  have h0 : stepTrace (afterStart pl).trace u = [] := by
    show stepTrace ([] ++ [Upd.pipeline RunStatus.STARTED]) u = []
    rw [stepTrace_append, stepTrace_pipeline_singleton]
    rfl
  exact ⟨fun _ => h0, fun _ _ => Or.inl h0, fun _ => Or.inl h0⟩

/-- Trace of a run whose loop exits through a break with every PUT
succeeding. -/
theorem run_broke_trace (sn : Bool) (pl : Pipeline) (iters : List PollIter) (st2 : LoopSt)
    (hr : runIters sn pl iters (afterStart pl) = (st2, .broke)) (htf : st2.trFails = []) :
    run_pipeline_workflow sn pl true iters [] =
      { final := { st2 with trace := st2.trace ++
          st2.steps_to_finish.map (fun v => Upd.step v RunStatus.ABORTED) ++
          [Upd.pipeline (if st2.had_failed_steps then RunStatus.FAILURE else RunStatus.SUCCESS)] }
        escaped := false
        exit := some .broke } := by
  rw [run_noFail_eq, if_pos rfl, runFromLoop, hr]
  dsimp only
  rw [finalizeTry_noFail st2 htf]

/-- Trace of a run whose loop raised, with every PUT succeeding. -/
theorem run_excepted_trace (sn : Bool) (pl : Pipeline) (iters : List PollIter) (st2 : LoopSt)
    (hr : runIters sn pl iters (afterStart pl) = (st2, .excepted)) (htf : st2.trFails = []) :
    run_pipeline_workflow sn pl true iters [] =
      { final := { st2 with trace := st2.trace ++
          st2.steps_to_finish.map (fun v => Upd.step v RunStatus.ABORTED) ++
          [Upd.pipeline RunStatus.FAILURE] }
        escaped := false
        exit := some .excepted } := by
  rw [run_noFail_eq, if_pos rfl, runFromLoop, hr]
  dsimp only
  rw [exceptPath_noFail st2 htf]

/-- Trace of a run whose submission raised, with every PUT succeeding. -/
theorem run_submitFail_trace (sn : Bool) (pl : Pipeline) (iters : List PollIter) :
    run_pipeline_workflow sn pl false iters [] =
      { final := { afterStart pl with trace := (afterStart pl).trace ++
          (afterStart pl).steps_to_finish.map (fun v => Upd.step v RunStatus.ABORTED) ++
          [Upd.pipeline RunStatus.FAILURE] }
        escaped := false
        exit := none } := by
  rw [run_noFail_eq, if_neg (by simp), exceptPath_noFail (afterStart pl) rfl]

/-- A single-node-mode engine report for the step `u` in phase `ph`. -/
def containerNode (u : String) (ph : String) : ArgoNode :=
  { type := "Container", templateName := none, displayName := some ("step-" ++ u)
    params := none, phase := some ph, message := "" }

/-- A malformed single-node engine report: `displayName` missing. -/
def badContainerNode : ArgoNode :=
  { type := "Container", templateName := none, displayName := none
    params := none, phase := some "Running", message := "" }

/-- A one-step pipeline (step `A`). -/
def onePl : Pipeline :=
  { steps := [ { properties := mkProps "A" [], parents := [], children := [] } ]
    properties := { name := "one", uuid := "pl", settings := "s", parameters := "p"
                    services := "sv", version := some "1" } }

/-- A two-step pipeline (independent steps `A`, `B`). -/
def twoPl : Pipeline :=
  { steps := [ { properties := mkProps "A" [], parents := [], children := [] }
             , { properties := mkProps "B" [], parents := [], children := [] } ]
    properties := { name := "two", uuid := "pl", settings := "s", parameters := "p"
                    services := "sv", version := some "1" } }

/-- C4 counterexample: a step first observed `Succeeded` is emitted as
`SUCCESS` with no preceding `STARTED`, so its update sequence `[SUCCESS]` is
not a prefix of `STARTED · terminal`. -/
theorem c4_counterexample_terminal_without_started :
    stepTrace (run_pipeline_workflow true onePl true
        [{ nodes := [containerNode "A" "Succeeded"], aborted := false, runStatus := none }]
        []).final.trace "A" = [RunStatus.SUCCESS] ∧
    ∀ t : RunStatus, ¬ ([RunStatus.SUCCESS] <+: [RunStatus.STARTED, t]) := by
  constructor
  · decide
  · intro t h
    rcases h with ⟨s, hs⟩
    simp at hs

/-- C4 (amended): for every pipeline, every submission outcome and every
scripted sequence of engine observations (with all tracker PUTs succeeding),
the updates emitted for any one step form a subsequence of
`STARTED · terminal`: at most one `STARTED`, followed by at most one terminal
status (`SUCCESS`, `FAILURE` or `ABORTED`), where the terminal status may
also appear without a preceding `STARTED`; updates are never repeated and no
step leaves a terminal state. -/
theorem c4_step_updates_admissible (sn : Bool) (pl : Pipeline) (submitOk : Bool)
    (iters : List PollIter) (u : String) :
    okShape (stepTrace (run_pipeline_workflow sn pl submitOk iters []).final.trace u) := by
  rw [run_noFail_eq]
  cases submitOk with
  | false =>
    rw [if_neg (by simp), exceptPath_noFail (afterStart pl) rfl]
    exact okShape_of_traceInv_final (afterStart pl) (traceInv_afterStart pl) _ u
  | true =>
    rw [if_pos rfl]
    have hinv1 := traceInv_afterStart pl
    cases hr : runIters sn pl iters (afterStart pl) with
    | mk st2 ek =>
      have hinv2 : TraceInv st2 := by
        have := runIters_traceInv sn pl iters (afterStart pl) hinv1
        rw [hr] at this
        exact this
      rw [runFromLoop, hr]
      cases ek with
      | excepted =>
        dsimp only
        rw [exceptPath_noFail st2 hinv2.1]
        exact okShape_of_traceInv_final st2 hinv2 _ u
      | scriptEnd =>
        dsimp only
        exact okShape_of_traceInv st2 hinv2 u
      | broke =>
        dsimp only
        rw [finalizeTry_noFail st2 hinv2.1]
        exact okShape_of_traceInv_final st2 hinv2 _ u

/-- C5: whenever the poll loop exits through one of its break conditions (all
steps finished, a failed step, cancellation probe, or terminal/missing
tracker record) with all tracker PUTs succeeding, the run emits `ABORTED` for
every step still in `steps_to_finish` and then, as the final tracker call,
pipeline `SUCCESS` when no step failed and `FAILURE` otherwise; in
particular a cancelled two-step run with no failures ends with pipeline
`SUCCESS`. -/
theorem c5_finalization_after_break :
    (∀ (sn : Bool) (pl : Pipeline) (iters : List PollIter) (st2 : LoopSt),
      runIters sn pl iters (afterStart pl) = (st2, .broke) →
        (run_pipeline_workflow sn pl true iters []).final.trace =
          st2.trace ++ st2.steps_to_finish.map (fun v => Upd.step v RunStatus.ABORTED) ++
            [Upd.pipeline (if st2.had_failed_steps then RunStatus.FAILURE
              else RunStatus.SUCCESS)]) ∧
    (run_pipeline_workflow true twoPl true
        [{ nodes := [containerNode "A" "Running", containerNode "B" "Running"]
           aborted := true, runStatus := none }] []).final.trace =
      [Upd.pipeline RunStatus.STARTED, Upd.step "A" RunStatus.STARTED,
       Upd.step "B" RunStatus.STARTED, Upd.step "A" RunStatus.ABORTED,
       Upd.step "B" RunStatus.ABORTED, Upd.pipeline RunStatus.SUCCESS] := by
  constructor
  · intro sn pl iters st2 hr
    have hinv2 : TraceInv st2 := by
      have := runIters_traceInv sn pl iters (afterStart pl) (traceInv_afterStart pl)
      rw [hr] at this
      exact this
    rw [run_broke_trace sn pl iters st2 hr hinv2.1]
  · decide

/-- C5 witness: the break-finalization equation applied to the concrete
cancelled two-step run. -/
theorem c5_witness :
    (run_pipeline_workflow true twoPl true
        [{ nodes := [containerNode "A" "Running", containerNode "B" "Running"]
           aborted := true, runStatus := none }] []).final.trace =
      ({ steps_to_start := ([] : List String), steps_to_finish := ["A", "B"]
         had_failed_steps := false
         trace := [Upd.pipeline RunStatus.STARTED, Upd.step "A" RunStatus.STARTED,
                   Upd.step "B" RunStatus.STARTED]
         trFails := ([] : List Bool) } : LoopSt).trace ++
        (["A", "B"].map (fun v => Upd.step v RunStatus.ABORTED)) ++
        [Upd.pipeline (if false then RunStatus.FAILURE else RunStatus.SUCCESS)] :=
  c5_finalization_after_break.1 true twoPl
    [{ nodes := [containerNode "A" "Running", containerNode "B" "Running"]
       aborted := true, runStatus := none }]
    { steps_to_start := [], steps_to_finish := ["A", "B"], had_failed_steps := false
      trace := [Upd.pipeline RunStatus.STARTED, Upd.step "A" RunStatus.STARTED,
                Upd.step "B" RunStatus.STARTED]
      trFails := [] }
    (by decide)

/-- C6 counterexample: exceptions do escape `run_pipeline_workflow`: a
failing tracker PUT for the initial pipeline `STARTED` (issued before the
try block), and a failing PUT inside the catch-all handler itself, both
propagate out. -/
theorem c6_counterexample_exception_escapes :
    (run_pipeline_workflow true onePl true [] [true]).escaped = true ∧
    (run_pipeline_workflow true onePl false [] [false, true]).escaped = true := by
  constructor
  · decide
  · decide

/-- C6 (amended): every exception raised inside the try block — manifest
compilation / engine submission (`submitOk = false`) or the polling and node
processing — is caught exactly once by the catch-all handler, which emits
`ABORTED` for each step still in `steps_to_finish` followed by pipeline
`FAILURE` and returns; provided tracker I/O never fails, no exception
escapes.  (Exceptions of the pre-try `STARTED` PUT or of PUTs inside the
handler itself do escape, per the counterexample.) -/
theorem c6_catch_all_behaviour :
    (∀ (sn : Bool) (pl : Pipeline) (submitOk : Bool) (iters : List PollIter),
        (run_pipeline_workflow sn pl submitOk iters []).escaped = false) ∧
    (∀ (sn : Bool) (pl : Pipeline) (iters : List PollIter) (st2 : LoopSt),
        runIters sn pl iters (afterStart pl) = (st2, .excepted) →
          (run_pipeline_workflow sn pl true iters []).final.trace =
            st2.trace ++ st2.steps_to_finish.map (fun v => Upd.step v RunStatus.ABORTED) ++
              [Upd.pipeline RunStatus.FAILURE]) ∧
    (∀ (sn : Bool) (pl : Pipeline) (iters : List PollIter),
        (run_pipeline_workflow sn pl false iters []).final.trace =
          (afterStart pl).trace ++
            (afterStart pl).steps_to_finish.map (fun v => Upd.step v RunStatus.ABORTED) ++
            [Upd.pipeline RunStatus.FAILURE]) := by
  refine ⟨?_, ?_, ?_⟩
  · intro sn pl submitOk iters
    rw [run_noFail_eq]
    cases submitOk with
    | false =>
      rw [if_neg (by simp), exceptPath_noFail (afterStart pl) rfl]
    | true =>
      rw [if_pos rfl]
      have hinv1 := traceInv_afterStart pl
      cases hr : runIters sn pl iters (afterStart pl) with
      | mk st2 ek =>
        have hinv2 : TraceInv st2 := by
          have := runIters_traceInv sn pl iters (afterStart pl) hinv1
          rw [hr] at this
          exact this
        rw [runFromLoop, hr]
        cases ek with
        | excepted =>
          dsimp only
          rw [exceptPath_noFail st2 hinv2.1]
        | scriptEnd =>
          dsimp only
        | broke =>
          dsimp only
          rw [finalizeTry_noFail st2 hinv2.1]
  · intro sn pl iters st2 hr
    have hinv2 : TraceInv st2 := by
      have := runIters_traceInv sn pl iters (afterStart pl) (traceInv_afterStart pl)
      rw [hr] at this
      exact this
    rw [run_excepted_trace sn pl iters st2 hr hinv2.1]
  · intro sn pl iters
    rw [run_submitFail_trace sn pl iters]

/-- C6 witness: the catch-all equation for a run raising on a malformed
engine node (missing `displayName`). -/
theorem c6_witness :
    (run_pipeline_workflow true onePl true
        [{ nodes := [badContainerNode], aborted := false, runStatus := none }] []).final.trace =
      (afterStart onePl).trace ++
        ((afterStart onePl).steps_to_finish.map (fun v => Upd.step v RunStatus.ABORTED)) ++
        [Upd.pipeline RunStatus.FAILURE] :=
  c6_catch_all_behaviour.2.1 true onePl
    [{ nodes := [badContainerNode], aborted := false, runStatus := none }]
    (afterStart onePl) (by decide)

namespace Heap

/-- A Python `PipelineStep` object on the heap: the properties dict as a
value (so `copy.deepcopy(step.properties)` is a plain copy) and the
`parents` / `_children` lists holding references (heap indices) to other
step objects. -/
structure Obj where
  props : PipelineStepProperties
  parents : List Nat
  children : List Nat
deriving DecidableEq

/-- The object store, indexed by allocation order. -/
abbrev H := List Obj

/-- A pipeline at heap level: references to its step objects plus the
top-level properties value. -/
structure Pl where
  steps : List Nat
  props : PipelineProperties
deriving DecidableEq

def getObj (h : H) (r : Nat) : Option Obj := h.get? r

def objUuid (h : H) (r : Nat) : Option String := (getObj h r).map (fun o => o.props.uuid)

/-- `steps[uuid]` as an allocation index (the dict is built in insertion
order, so the object for key `u` is the `findIdx`-th allocation). -/
def keyIndex (steps : List (String × PipelineStepProperties)) (u : String) : Option Nat :=
  steps.findIdx? (fun kv => kv.1 == u)

/-- The `_children` reference list the second pass of `from_json` builds for
the step stored under key `k`. -/
def childIndices (steps : List (String × PipelineStepProperties)) (k : String) : List Nat :=
  steps.enum.foldr
    (fun jkv acc =>
      (jkv.2.2.incoming_connections.filter (fun u => u == k)).map (fun _ => jkv.1) ++ acc)
    []

/-- Heap-level `Pipeline.from_json` on a fresh heap: one object per step (at
indices `0 .. n-1`), `parents`/`_children` populated with references. -/
def fromJsonHeap (d : PipelineDefinition) : Option (H × Pl) :=
  (mapOption (fun kv =>
      (mapOption (fun u => keyIndex d.steps u) kv.2.incoming_connections).map
        (fun parentRefs =>
          ({ props := kv.2
             parents := parentRefs
             children := childIndices d.steps kv.1 } : Obj)))
      d.steps).map
    (fun objs =>
      (objs,
       { steps := List.range objs.length
         props :=
           { name := d.name, uuid := d.uuid, settings := d.settings
             parameters := d.parameters.getD emptyJsonObject
             services := d.services.getD emptyJsonObject
             version := d.version } }))

/-- Heap-level `Pipeline.get_induced_subgraph`: new step objects are
allocated (appended to the heap) with deep-copied properties, while their
`parents`/`_children` lists keep the *original* references, filtered by
uuid-membership in the kept set, exactly as the list comprehensions of the
source do. -/
def get_induced_subgraph (h : H) (pl : Pl) (selection : List String) : H × Pl :=
  let keepRefs := pl.steps.filter (fun r =>
    match objUuid h r with
    | some u => selection.contains u
    | none => false)
  let keepUuids := keepRefs.filterMap (fun r => objUuid h r)
  let newObjs := keepRefs.filterMap (fun r =>
    (getObj h r).map (fun o =>
      let newParents := o.parents.filter (fun q =>
        match objUuid h q with
        | some u => keepUuids.contains u
        | none => false)
      ({ props := { o.props with
             incoming_connections := newParents.filterMap (fun q => objUuid h q) }
         parents := newParents
         children := o.children.filter (fun q =>
           match objUuid h q with
           | some u => keepUuids.contains u
           | none => false) } : Obj)))
  (h ++ newObjs,
   { steps := (List.range newObjs.length).map (fun i => h.length + i), props := pl.props })

/-- In-place mutation of a step object's properties dict
(`step.properties["title"] = t`). -/
def setTitle (h : H) (r : Nat) (t : String) : H :=
  match h.get? r with
  | none => h
  | some o => h.set r { o with props := { o.props with title := t } }

def stepTitle (h : H) (r : Nat) : Option String := (getObj h r).map (fun o => o.props.title)

end Heap

/-- The two-step chain `A → B` for the aliasing counterexample. -/
def abDef : PipelineDefinition :=
  { uuid := "pl", name := "ab", settings := "s", version := some "1"
    parameters := some "p", services := some "sv"
    steps := [("A", mkProps "A" []), ("B", mkProps "B" ["A"])]
    extra := [] }

/-- The heap `fromJsonHeap abDef` allocates. -/
def abH0 : Heap.H :=
  [ { props := mkProps "A" [], parents := [], children := [1] }
  , { props := mkProps "B" ["A"], parents := [0], children := [] } ]

/-- The source pipeline on that heap. -/
def abSrc : Heap.Pl :=
  { steps := [0, 1]
    props := { name := "ab", uuid := "pl", settings := "s", parameters := "p"
               services := "sv", version := some "1" } }

/-- Heap and pipeline after `get_induced_subgraph` over the full selection. -/
def abH1 : Heap.H :=
  abH0 ++
    [ { props := mkProps "A" [], parents := [], children := [1] }
    , { props := mkProps "B" ["A"], parents := [0], children := [] } ]

def abSub : Heap.Pl :=
  { steps := [2, 3]
    props := { name := "ab", uuid := "pl", settings := "s", parameters := "p"
               services := "sv", version := some "1" } }

/-- C9 counterexample: the step objects returned by `get_induced_subgraph`
hold references to the *source* pipeline's step objects in their adjacency
lists — here the transformed `B` (heap ref 3) keeps the original `A` (heap
ref 0) as parent — so mutating the properties of a step reached through a
returned step's `parents` alters the source pipeline. -/
theorem c9_counterexample_adjacency_references_source :
    Heap.fromJsonHeap abDef = some (abH0, abSrc) ∧
    Heap.get_induced_subgraph abH0 abSrc ["A", "B"] = (abH1, abSub) ∧
    (Heap.getObj abH1 3).map (fun o => o.parents) = some [0] ∧
    abSrc.steps = [0, 1] ∧
    Heap.stepTitle abH1 0 = some "A" ∧
    Heap.stepTitle (Heap.setTitle abH1 0 "mutated") 0 = some "mutated" := by
  refine ⟨by decide, by decide, by decide, by decide, by decide, by decide⟩

/-- C9 (amended): `get_induced_subgraph` allocates fresh step objects with
deep-copied properties — the derivation leaves every source object unchanged,
the returned references are disjoint from the source's, and mutating a
returned step's own properties cannot alter any source step; the
exclusive-ownership half of the original claim fails because the
`parents`/`_children` lists of the returned steps reference the source
objects (per the counterexample). -/
theorem c9_induced_subgraph_deepcopy_isolation (h : Heap.H) (pl : Heap.Pl)
    (sel : List String) (hwf : ∀ r ∈ pl.steps, r < h.length) :
    (∀ r ∈ pl.steps, Heap.getObj (Heap.get_induced_subgraph h pl sel).1 r = Heap.getObj h r) ∧
    (∀ r2 ∈ (Heap.get_induced_subgraph h pl sel).2.steps, h.length ≤ r2) ∧
    (∀ r2 ∈ (Heap.get_induced_subgraph h pl sel).2.steps, ∀ t : String, ∀ r ∈ pl.steps,
      Heap.stepTitle (Heap.setTitle (Heap.get_induced_subgraph h pl sel).1 r2 t) r =
        Heap.stepTitle (Heap.get_induced_subgraph h pl sel).1 r) := by
  refine ⟨?_, ?_, ?_⟩
  · intro r hr
    show ((h ++ _).get? r) = h.get? r
    rw [List.get?_append (hwf r hr)]
  · intro r2 hr2
    rcases List.mem_map.mp hr2 with ⟨i, _, hi⟩
    rw [← hi]
    exact Nat.le_add_right _ _
  · intro r2 hr2 t r hr
    have hlt : r < h.length := hwf r hr
    have hne : r ≠ r2 := by
      intro hc
      have hge : h.length ≤ r2 := by
        rcases List.mem_map.mp hr2 with ⟨i, _, hi⟩
        rw [← hi]
        exact Nat.le_add_right _ _
      rw [hc] at hlt
      exact absurd hlt (Nat.not_lt.mpr hge)
    rw [Heap.setTitle]
    cases hg : (Heap.get_induced_subgraph h pl sel).1.get? r2 with
    | none => rfl
    | some o =>
      rw [Heap.stepTitle, Heap.stepTitle, Heap.getObj, Heap.getObj]
      rw [List.get?_set_ne _ _ (fun hc => hne hc.symm)]

/-- C9 witness: the deep-copy isolation theorem at the concrete two-step
pipeline, instantiated at the returned step `3` and the source step `0`. -/
theorem c9_witness :
    Heap.stepTitle (Heap.setTitle (Heap.get_induced_subgraph abH0 abSrc ["A", "B"]).1 3 "mut") 0 =
      Heap.stepTitle (Heap.get_induced_subgraph abH0 abSrc ["A", "B"]).1 0 :=
  (c9_induced_subgraph_deepcopy_isolation abH0 abSrc ["A", "B"] (by decide)).2.2
    3 (by decide) "mut" 0 (by decide)
